import Mathlib

/-!
Verification of `BinarySearchTree.h` and `PriorityQueue.h`.

A shallow embedding of the two containers of the repository:

* `BinarySearchTree<K, V, Comparator>` (an unbalanced binary search tree of key/value pairs,
  `src/assignment-binary-search-tree/src/BinarySearchTree.h`);
* `PriorityQueue<T, Container, Compare>` (a binary heap stored in a `std::vector`,
  `src/assignment-priority-queue/src/PriorityQueue.h`).

Conventions of the embedding.

* A nullable owning pointer `node_ptr` to a `BinaryNode` is a value of the inductive type
  `node_ptr`: `nullptr` or a node with its element and its two owned children.
* The private member functions, which take the pointer by reference and update the member
  `_size`, take and return the pointer value and the counter explicitly.
* A comparator object is a function `K → K → Bool`; `std.less` is the default one.  The code
  calls `comp` in `insert` and `contains` and the built-in `<` in `erase` and `find`; the
  embedding keeps that distinction.
* `size_type` values are natural numbers.  The number of live nodes and the length of a vector
  are bounded by the address space, so `_size++`, `2 * index + 1` and `2 * (index + 1)` do not
  wrap; `_size--` is executed only when a node is unlinked.  The one subtraction that can wrap,
  `index - 1` in `parent`, is modelled with its wrap-around.
* Undefined behaviour (dereferencing a null pointer, indexing a vector out of bounds) is the
  result `none`.
* A member function that also writes its argument (move constructor, move assignment)
  returns the pair of the object and the state left in the argument.
* A loop or a recursion on an index is a structurally recursive function with a fuel
  argument; running out of fuel is `none` as well, and the theorems show that the fuel the
  member functions start with is enough.
-/

set_option autoImplicit false

universe u v

/-! ## BinarySearchTree -/

/-- The default comparator `std::less<K>`: `comp(a, b)` is `a < b`. -/
def std.less {K : Type u} [LT K] [∀ a b : K, Decidable (a < b)] (a b : K) : Bool :=
  decide (a < b)

/-- The comparator `std::greater<K>`: `comp(a, b)` is `a > b`. -/
def std.greater {K : Type u} [LT K] [∀ a b : K, Decidable (a < b)] (a b : K) : Bool :=
  decide (b < a)

/-- A `BinaryNode *`: either `nullptr` or a node holding `element` (a `std::pair<K, V>`) and
the pointers `left` and `right` to the subtrees it owns. -/
inductive node_ptr (K : Type u) (V : Type v) where
  | nullptr : node_ptr K V
  | node (element : K × V) (left right : node_ptr K V) : node_ptr K V
  deriving DecidableEq

namespace node_ptr

variable {K : Type u} {V : Type v}

/-- Private `insert( const_reference x, node_ptr & t )`: the new value of `t` and of `_size`. -/
def insert (comp : K → K → Bool) (x : K × V) : node_ptr K V → Nat → node_ptr K V × Nat
  | nullptr, size => (node x nullptr nullptr, size + 1)
  | node e l r, size =>
    if comp x.1 e.1 then
      let p := insert comp x l size
      (node e p.1 r, p.2)
    else if comp e.1 x.1 then
      let p := insert comp x r size
      (node e l p.1, p.2)
    else
      (node (e.1, x.2) l r, size)

/-- The test `t == nullptr`. -/
def isNull : node_ptr K V → Bool
  | nullptr => true
  | node _ _ _ => false

/-- Private `min( const_node_ptr t )`: the leftmost node of `t`, `nullptr` for `nullptr`. -/
def min : node_ptr K V → node_ptr K V
  | nullptr => nullptr
  | node e nullptr r => node e nullptr r
  | node _ (node el ll lr) _ => min (node el ll lr)

/-- Private `erase( const key_type & x, node_ptr & t )`: the new value of `t` and of `_size`.
The comparisons are the built-in `<` of the key type, as in the source.  In the two-children
case `min(t->right)` is dereferenced; `t->right` is not null there, so the `nullptr` branch of
the inner `match` is never taken (`min_eq_nullptr_iff`). -/
def erase [LT K] [∀ a b : K, Decidable (a < b)] (x : K) :
    node_ptr K V → Nat → node_ptr K V × Nat
  | nullptr, size => (nullptr, size)
  | node e l r, size =>
    if x < e.1 then
      let p := erase x l size
      (node e p.1 r, p.2)
    else if e.1 < x then
      let p := erase x r size
      (node e l p.1, p.2)
    else if !l.isNull && !r.isNull then
      match min r with
      | node m _ _ =>
        let p := erase m.1 r size
        (node m l p.1, p.2)
      | nullptr => (node e l r, size)
    else
      (if !l.isNull then l else r, size - 1)

/-- Private `contains( const key_type & x, const_node_ptr t )`, a descent driven by `comp`. -/
def contains (comp : K → K → Bool) (x : K) : node_ptr K V → Bool
  | nullptr => false
  | node e l r =>
    if comp x e.1 then contains comp x l
    else if comp e.1 x then contains comp x r
    else true

/-- Private `find( const key_type & key, node_ptr t )`, a descent driven by the built-in `<`:
the node located (with the subtree it owns) or `nullptr`. -/
def find [LT K] [∀ a b : K, Decidable (a < b)] (key : K) : node_ptr K V → node_ptr K V
  | nullptr => nullptr
  | node e l r =>
    if e.1 < key then find key r
    else if key < e.1 then find key l
    else node e l r

/-- Private `clear( node_ptr & t )`: both subtrees are cleared, the node is deleted and `t`
is set to `nullptr`. -/
def clear : node_ptr K V → node_ptr K V
  | nullptr => nullptr
  | node _ l r =>
    let _l := clear l
    let _r := clear r
    nullptr

/-- The number of nodes reachable from `t`. -/
def numNodes : node_ptr K V → Nat
  | nullptr => 0
  | node _ l r => numNodes l + 1 + numNodes r

/-- In-order traversal: left subtree, node, right subtree. -/
def inorder : node_ptr K V → List (K × V)
  | nullptr => []
  | node e l r => inorder l ++ e :: inorder r

/-- BST order: at every node, every key of the left subtree is less than the node's key and
every key of the right subtree is greater. -/
def BSTOrder [LT K] : node_ptr K V → Prop
  | nullptr => True
  | node e l r =>
    (∀ y ∈ inorder l, y.1 < e.1) ∧ (∀ y ∈ inorder r, e.1 < y.1) ∧ BSTOrder l ∧ BSTOrder r

/-- The tree `t` without its leftmost node: that node has no left child, so its right
subtree takes its place. -/
def removeMin : node_ptr K V → node_ptr K V
  | nullptr => nullptr
  | node _ nullptr r => r
  | node e (node el ll lr) r => node e (removeMin (node el ll lr)) r

/-- The dereference `t->element`, undefined (`none`) for `nullptr`. -/
def element? : node_ptr K V → Option (K × V)
  | nullptr => none
  | node e _ _ => some e

/-- One step from a node to one of its children. -/
inductive Dir where
  | left : Dir
  | right : Dir
  deriving DecidableEq

/-- The subtree reached from `t` along a path of child links (`nullptr` when the path
leaves the tree). -/
def subtreeAt : List Dir → node_ptr K V → node_ptr K V
  | [], t => t
  | _ :: _, nullptr => nullptr
  | Dir.left :: p, node _ l _ => subtreeAt p l
  | Dir.right :: p, node _ _ r => subtreeAt p r

/-- The tree `t` with the subtree at the end of a path replaced by `u`; every node outside
that subtree stays in place. -/
def replaceAt : List Dir → node_ptr K V → node_ptr K V → node_ptr K V
  | [], _, u => u
  | _ :: _, nullptr, _ => nullptr
  | Dir.left :: p, node e l r, u => node e (replaceAt p l u) r
  | Dir.right :: p, node e l r, u => node e l (replaceAt p r u)

/-- Private `max( const_node_ptr t )`: the `while` loop follows the `right` links from `t`
to the rightmost node; `nullptr` for `nullptr`. -/
def max : node_ptr K V → node_ptr K V
  | nullptr => nullptr
  | node e l nullptr => node e l nullptr
  | node _ _ (node er rl rr) => max (node er rl rr)

/-- Private `clone( const_node_ptr t )`: a new node for every node of `t`.  The argument of
the node constructor is `std::move(t->element)` with `t` a pointer to a `const` node, that
is a `const pair &&`, which selects the copying constructor: the element is copied and the
original node is not modified. -/
def clone : node_ptr K V → node_ptr K V
  | nullptr => nullptr
  | node e l r => node e (clone l) (clone r)

/-- The shape of a tree: its nodes without their elements. -/
def shape : node_ptr K V → node_ptr Unit Unit
  | nullptr => nullptr
  | node _ l r => node ((), ()) (shape l) (shape r)

end node_ptr

/-- The members `_root` and `_size` of a `BinarySearchTree` object. -/
structure BinarySearchTree (K : Type u) (V : Type v) where
  _root : node_ptr K V
  _size : Nat
  deriving DecidableEq

namespace BinarySearchTree

variable {K : Type u} {V : Type v}

/-- The default constructor: `_root = nullptr`, `_size = 0`. -/
def init : BinarySearchTree K V := ⟨node_ptr.nullptr, 0⟩

/-- Public `insert( const_reference x )`. -/
def insert (comp : K → K → Bool) (x : K × V) (b : BinarySearchTree K V) :
    BinarySearchTree K V :=
  let p := node_ptr.insert comp x b._root b._size
  ⟨p.1, p.2⟩

/-- Public `erase( const key_type & x )`. -/
def erase [LT K] [∀ a b : K, Decidable (a < b)] (x : K) (b : BinarySearchTree K V) :
    BinarySearchTree K V :=
  let p := node_ptr.erase x b._root b._size
  ⟨p.1, p.2⟩

/-- Public `contains( const key_type & x )`. -/
def contains (comp : K → K → Bool) (x : K) (b : BinarySearchTree K V) : Bool :=
  node_ptr.contains comp x b._root

/-- Public `find( const key_type & key )`: `find( key, _root )->element.second`; the
dereference of a null result is undefined behaviour, `none`. -/
def find [LT K] [∀ a b : K, Decidable (a < b)] (key : K) (b : BinarySearchTree K V) :
    Option V :=
  match node_ptr.find key b._root with
  | node_ptr.nullptr => none
  | node_ptr.node e _ _ => some e.2

/-- Public `empty()`: `_size == 0`. -/
def empty (b : BinarySearchTree K V) : Bool := b._size == 0

/-- Public `size()`. -/
def size (b : BinarySearchTree K V) : Nat := b._size

/-- Public `clear()`: `clear( _root ); _size = 0;`. -/
def clear (b : BinarySearchTree K V) : BinarySearchTree K V :=
  ⟨node_ptr.clear b._root, 0⟩

/-- Public `min()`: `min( _root )->element`; the dereference of a null result is undefined
behaviour, `none`. -/
def min (b : BinarySearchTree K V) : Option (K × V) := (node_ptr.min b._root).element?

/-- Public `max()`: `max( _root )->element`; the dereference of a null result is undefined
behaviour, `none`. -/
def max (b : BinarySearchTree K V) : Option (K × V) := (node_ptr.max b._root).element?

/-- The copy constructor: `_root = clone(rhs._root); _size = rhs._size;`.  The argument is
a reference to a `const` object and is not modified. -/
def copy (rhs : BinarySearchTree K V) : BinarySearchTree K V :=
  ⟨node_ptr.clone rhs._root, rhs._size⟩

/-- The copy assignment operator, the new state of `*this`.  The test `_root == rhs._root`
compares pointers: two different objects own disjoint nodes, so their roots are equal only
when both are null, and then `*this` is returned as it is.  When an object with a non-null
root is assigned to itself the source also returns it as it is, which is the value that
the other branch gives here (`clone_eq`).  The argument is not modified. -/
def copyAssign (self rhs : BinarySearchTree K V) : BinarySearchTree K V :=
  if self._root.isNull && rhs._root.isNull then
    self
  else
    let _cleared := self.clear
    ⟨node_ptr.clone rhs._root, rhs._size⟩

/-- The move constructor: `_root = rhs._root; rhs._root = nullptr; _size = rhs._size;`.
The result is the new object and the state left in `rhs`. -/
def moveCtor (rhs : BinarySearchTree K V) : BinarySearchTree K V × BinarySearchTree K V :=
  (⟨rhs._root, rhs._size⟩, ⟨node_ptr.nullptr, rhs._size⟩)

/-- The move assignment operator with `&rhs != this`:
`if(!empty()){ clear(); } _root = rhs._root; rhs._root = nullptr; _size = rhs._size;`.
The result is the new state of `*this` and the state left in `rhs`. -/
def moveAssign (self rhs : BinarySearchTree K V) :
    BinarySearchTree K V × BinarySearchTree K V :=
  let _cleared := if !self.empty then self.clear else self
  (⟨rhs._root, rhs._size⟩, ⟨node_ptr.nullptr, rhs._size⟩)

/-- One call of a mutating public member function. -/
inductive Op (K : Type u) (V : Type v) where
  | insert (x : K × V) : Op K V
  | erase (k : K) : Op K V
  | clear : Op K V

/-- The effect of one operation, with the default comparator. -/
def step [LT K] [∀ a b : K, Decidable (a < b)] (b : BinarySearchTree K V) :
    Op K V → BinarySearchTree K V
  | Op.insert x => b.insert std.less x
  | Op.erase k => b.erase k
  | Op.clear => b.clear

/-- The tree obtained from `b` by a sequence of operations, first operation first. -/
def run [LT K] [∀ a b : K, Decidable (a < b)] (b : BinarySearchTree K V)
    (ops : List (Op K V)) : BinarySearchTree K V :=
  ops.foldl step b

/-- Bookkeeping over a run of operations started in `b`: the number of `insert` calls that
created a node (the node count went up) and the number of `erase` calls that removed a node
(the node count went down) since the last `clear`, added to the pair `acc`. -/
def tally [LT K] [∀ a b : K, Decidable (a < b)] (b : BinarySearchTree K V) :
    List (Op K V) → Nat × Nat → Nat × Nat
  | [], acc => acc
  | Op.insert x :: ops, acc =>
    tally (b.step (Op.insert x)) ops
      (if (b.step (Op.insert x))._root.numNodes > b._root.numNodes then acc.1 + 1 else acc.1,
        acc.2)
  | Op.erase k :: ops, acc =>
    tally (b.step (Op.erase k)) ops
      (acc.1,
        if (b.step (Op.erase k))._root.numNodes < b._root.numNodes then acc.2 + 1 else acc.2)
  | Op.clear :: ops, _ => tally (b.step Op.clear) ops (0, 0)

/-- The tree of Scenario A: the keys 5, 3, 8, 1, 4 inserted in this order into an empty
tree, each key `k` with the value `10 * k`. -/
def scenarioA : BinarySearchTree Nat Nat :=
  ⟨node_ptr.node (5, 50)
      (node_ptr.node (3, 30)
        (node_ptr.node (1, 10) node_ptr.nullptr node_ptr.nullptr)
        (node_ptr.node (4, 40) node_ptr.nullptr node_ptr.nullptr))
      (node_ptr.node (8, 80) node_ptr.nullptr node_ptr.nullptr),
    5⟩

/-- A tree built under `std::greater`: the keys 5 and 3 inserted in this order into an empty
`BinarySearchTree<int, int, std::greater<int>>`. -/
def greaterTree : BinarySearchTree Nat Nat :=
  (init.insert std.greater (5, 50)).insert std.greater (3, 30)

/-- A tree with one node whose `size()` is 1. -/
def singleton : BinarySearchTree Nat Nat :=
  ⟨node_ptr.node (1, 10) node_ptr.nullptr node_ptr.nullptr, 1⟩

end BinarySearchTree

/-! ## PriorityQueue -/

/-- The C++ named requirement *Compare*: `comp` induces a strict weak ordering, that is, it
is irreflexive and transitive, and incomparability (`!comp(a, b) && !comp(b, a)`) is
transitive. -/
structure StrictWeakOrder {T : Type u} (comp : T → T → Bool) : Prop where
  irrefl : ∀ a, comp a a = false
  trans : ∀ a b c, comp a b = true → comp b c = true → comp a c = true
  incomp_trans : ∀ a b c, comp a b = false → comp b a = false → comp b c = false →
    comp c b = false → comp a c = false ∧ comp c a = false

/-- The member `c` of a `PriorityQueue` object, a `std::vector<T>`; the comparator member
`comp` is stateless and is passed to the member functions. -/
structure PriorityQueue (T : Type) where
  c : List T
  deriving DecidableEq

namespace PriorityQueue

variable {T : Type}

/-- The largest `size_t` value (64-bit `size_type`). -/
def SIZE_MAX : Nat := 2 ^ 64 - 1

/-- The member `parent(index)`, `(index - 1) / 2` in `size_type` arithmetic: `index - 1`
wraps around to `SIZE_MAX` when `index` is `0`. -/
def parent (index : Nat) : Nat := (if index = 0 then SIZE_MAX else index - 1) / 2

/-- The member `left_child(index)`, `2 * index + 1`. -/
def left_child (index : Nat) : Nat := 2 * index + 1

/-- The member `right_child(index)`, `2 * (index + 1)`. -/
def right_child (index : Nat) : Nat := 2 * (index + 1)

/-- The member `is_internal(index)`, `left_child(index) < c.size()`. -/
def is_internal (c : List T) (index : Nat) : Bool := left_child index < c.length

/-- The member `is_leaf(index)`, `left_child(index) >= c.size()`. -/
def is_leaf (c : List T) (index : Nat) : Bool := left_child index ≥ c.length

/-- The call `std::swap(c[i], c[j])`; `none` when an index is out of bounds. -/
def swap (c : List T) (i j : Nat) : Option (List T) := do
  let a ← c.get? i
  let b ← c.get? j
  pure ((c.set i b).set j a)

/-- The `while` loop of `upheap`, one iteration per unit of fuel. -/
def upheapLoop (comp : T → T → Bool) : Nat → List T → Nat → Option (List T)
  | 0, _, _ => none
  | fuel + 1, c, index =>
    if index != 0 then do
      let p ← c.get? (parent index)
      let x ← c.get? index
      if comp p x then do
        let c1 ← swap c (parent index) index
        upheapLoop comp fuel c1 (parent index)
      else
        pure c
    else
      pure c

/-- The member `upheap(index)`.  The loop runs at most `index` times, so the
fuel `index + 1` is enough (`upheapLoop_spec`). -/
def upheap (comp : T → T → Bool) (c : List T) (index : Nat) : Option (List T) :=
  upheapLoop comp (index + 1) c index

/-- The recursion of `downheap`, one call per unit of fuel. -/
def downheapRec (comp : T → T → Bool) : Nat → List T → Nat → Option (List T)
  | 0, _, _ => none
  | fuel + 1, c, index =>
    if is_leaf c index then
      pure c
    else do
      let curr : Nat ←
        if right_child index < c.length then do
          let l ← c.get? (left_child index)
          let r ← c.get? (right_child index)
          pure (if comp l r then right_child index else left_child index)
        else
          pure (left_child index)
      let x ← c.get? index
      let y ← c.get? curr
      let c1 ← if comp x y then swap c index curr else pure c
      downheapRec comp fuel c1 curr

/-- The member `downheap(index)`.  The recursion is at most `c.size()` deep, so the fuel
`c.size() + 1` is enough (`downheapRec_spec`). -/
def downheap (comp : T → T → Bool) (c : List T) (index : Nat) : Option (List T) :=
  downheapRec comp (c.length + 1) c index

/-- The default constructor: an empty vector. -/
def init : PriorityQueue T := ⟨[]⟩

/-- The member `top()`, `c[0]`. -/
def top (q : PriorityQueue T) : Option T := q.c.get? 0

/-- The member `empty()`, `c.size() == 0`. -/
def empty (q : PriorityQueue T) : Bool := q.c.length == 0

/-- The member `size()`, `c.size()`. -/
def size (q : PriorityQueue T) : Nat := q.c.length

/-- The member `push(value)`: `c.push_back(value); upheap(size() - 1);`. -/
def push (comp : T → T → Bool) (value : T) (q : PriorityQueue T) :
    Option (PriorityQueue T) := do
  let c1 := q.c ++ [value]
  let c2 ← upheap comp c1 (c1.length - 1)
  pure ⟨c2⟩

/-- The member `pop()`: `c.front() = std::move(c.back()); c.pop_back(); downheap(0);`.
On an empty vector `c.front()` and `c.back()` are undefined.  (When `front()` and `back()`
are the same object it is removed by `pop_back` whatever the assignment left in it.) -/
def pop (comp : T → T → Bool) (q : PriorityQueue T) : Option (PriorityQueue T) := do
  let _front ← q.c.head?
  let back ← q.c.getLast?
  let c1 := q.c.set 0 back
  let c2 := c1.dropLast
  let c3 ← downheap comp c2 0
  pure ⟨c3⟩

/-- Heap order of a sequence: at every position `i >= 1`, `comp(c[(i-1)/2], c[i])` is
false. -/
def HeapOrder (comp : T → T → Bool) (c : List T) : Prop :=
  ∀ i a b, 1 ≤ i → c.get? ((i - 1) / 2) = some a → c.get? i = some b → comp a b = false

/-- The state of the sequence during `upheap(index)`: heap order holds at every position
except `index`, and the children of `index` do not rank above the parent of `index`. -/
def UpInv (comp : T → T → Bool) (l : List T) (index : Nat) : Prop :=
  (∀ j a b, 1 ≤ j → j ≠ index → l[(j - 1) / 2]? = some a → l[j]? = some b →
      comp a b = false) ∧
    (∀ j a b, 1 ≤ index → 1 ≤ j → (j - 1) / 2 = index → l[(index - 1) / 2]? = some a →
      l[j]? = some b → comp a b = false)

/-- The state of the sequence during `downheap(index)`: heap order holds at every position
except the children of `index`, and these children do not rank above the parent of
`index`. -/
def DownInv (comp : T → T → Bool) (l : List T) (index : Nat) : Prop :=
  (∀ j a b, 1 ≤ j → (j - 1) / 2 ≠ index → l[(j - 1) / 2]? = some a → l[j]? = some b →
      comp a b = false) ∧
    (∀ j a b, 1 ≤ index → 1 ≤ j → (j - 1) / 2 = index → l[(index - 1) / 2]? = some a →
      l[j]? = some b → comp a b = false)

/-- The sift-down as section 4.2 of the specification words it, to be compared with the
source's `downheap` (`downheapRec`), which has a different control flow.  "At each step compare the two children (if both
exist, pick the one that is not ranked lower than the other; if only one child exists, pick
it), swap with the current node if the current node ranks lower than that chosen child, and
recurse into the swapped position; stop when the node is a leaf or no child ranks
higher."  One step per unit of fuel. -/
def downheapSpecRec (comp : T → T → Bool) : Nat → List T → Nat → Option (List T)
  | 0, _, _ => none
  | fuel + 1, c, index =>
    if is_leaf c index then
      pure c
    else do
      let curr : Nat ←
        if right_child index < c.length then do
          let l ← c.get? (left_child index)
          let r ← c.get? (right_child index)
          pure (if comp l r then right_child index else left_child index)
        else
          pure (left_child index)
      let x ← c.get? index
      let y ← c.get? curr
      if comp x y then do
        let c1 ← swap c index curr
        downheapSpecRec comp fuel c1 curr
      else
        pure c

/-- The specified sift-down started at `index`, with the fuel of `downheap`. -/
def downheapSpec (comp : T → T → Bool) (c : List T) (index : Nat) : Option (List T) :=
  downheapSpecRec comp (c.length + 1) c index

/-- The positions of the subtree rooted at position `k` of the complete binary tree that
the sequence represents. -/
inductive InSubtree (k : Nat) : Nat → Prop where
  | root : InSubtree k k
  | left {m : Nat} : InSubtree k m → InSubtree k (left_child m)
  | right {m : Nat} : InSubtree k m → InSubtree k (right_child m)

/-- The subtree rooted at position `k` satisfies heap order: no element of the subtree
ranks below one of its children. -/
def SubHeap (comp : T → T → Bool) (l : List T) (k : Nat) : Prop :=
  ∀ j a b, 1 ≤ j → InSubtree k ((j - 1) / 2) → l[(j - 1) / 2]? = some a → l[j]? = some b →
    comp a b = false

/-- A check that heap order holds at every position whose parent is at position `k` or
later; this covers the subtree rooted at `k` (`subHeap_of_check`). -/
def heapOrderFrom (comp : T → T → Bool) (l : List T) (k : Nat) : Bool :=
  (List.range l.length).all fun j =>
    if 1 ≤ j ∧ k ≤ (j - 1) / 2 then
      match l[(j - 1) / 2]?, l[j]? with
      | some a, some b => !comp a b
      | _, _ => true
    else true

/-- The loop of `upheap` with a record of the arguments with which `parent` is called, in
the order of the calls (the three calls of one iteration have the same argument and are
recorded once). -/
def upheapTrace (comp : T → T → Bool) : Nat → List T → Nat → Option (List T × List Nat)
  | 0, _, _ => none
  | fuel + 1, c, index =>
    if index != 0 then do
      let p ← c.get? (parent index)
      let x ← c.get? index
      if comp p x then do
        let c1 ← swap c (parent index) index
        let r ← upheapTrace comp fuel c1 (parent index)
        pure (r.1, index :: r.2)
      else
        pure (c, [index])
    else
      pure (c, [])

/-- One call of a mutating public member function. -/
inductive Op (T : Type) where
  | push (value : T) : Op T
  | pop : Op T

/-- The effect of one operation. -/
def step (comp : T → T → Bool) (q : PriorityQueue T) : Op T → Option (PriorityQueue T)
  | Op.push value => q.push comp value
  | Op.pop => q.pop comp

/-- The queue obtained from `q` by a sequence of operations, first operation first. -/
def run (comp : T → T → Bool) (q : PriorityQueue T) : List (Op T) → Option (PriorityQueue T)
  | [] => some q
  | op :: ops => (step comp q op).bind fun q1 => run comp q1 ops

/-- Whether every `pop` of the sequence is applied to a non-empty queue, for a queue that
holds `n` elements at the start. -/
def popsGuarded : Nat → List (Op T) → Bool
  | _, [] => true
  | n, Op.push _ :: ops => popsGuarded (n + 1) ops
  | 0, Op.pop :: _ => false
  | n + 1, Op.pop :: ops => popsGuarded n ops

/-- The loop `while (!q.empty()) { out.push_back(q.top()); q.pop(); }`, one iteration per
unit of fuel. -/
def drainLoop (comp : T → T → Bool) : Nat → PriorityQueue T → Option (List T)
  | 0, _ => none
  | fuel + 1, q =>
    if q.empty then
      pure []
    else do
      let t ← q.top
      let q1 ← q.pop comp
      let rest ← drainLoop comp fuel q1
      pure (t :: rest)

/-- Reading `top()` and calling `pop()` until the queue is empty; the loop runs `size()`
times, so the fuel `size() + 1` is enough (`drainLoop_spec`). -/
def drain (comp : T → T → Bool) (q : PriorityQueue T) : Option (List T) :=
  drainLoop comp (q.size + 1) q

/-- Pushing the elements of a list one by one, first element first. -/
def pushAll (comp : T → T → Bool) (q : PriorityQueue T) (xs : List T) :
    Option (PriorityQueue T) :=
  run comp q (xs.map Op.push)

end PriorityQueue

/-! ## Theorems on BinarySearchTree -/

section BinarySearchTreeLemmas

variable {K : Type u} {V : Type v}

theorem std.less_eq_true_iff [LinearOrder K] (a b : K) : std.less a b = true ↔ a < b := by
  simp [std.less]

namespace node_ptr

theorem isNull_iff (t : node_ptr K V) : t.isNull = true ↔ t = nullptr := by
  cases t <;> simp [isNull]

theorem min_eq_nullptr_iff (t : node_ptr K V) : min t = nullptr ↔ t = nullptr := by
  induction t with
  | nullptr => simp [min]
  | node e l r ihl _ =>
    cases l with
    | nullptr => simp [min]
    | node el ll lr => simpa [min] using ihl

/-- The node returned by `min` has no left child and is the first entry of the in-order
traversal; the rest of the traversal is the traversal of `removeMin`. -/
theorem inorder_of_min {t : node_ptr K V} {m : K × V} {ml mr : node_ptr K V}
    (h : min t = node m ml mr) :
    ml = nullptr ∧ inorder t = m :: inorder (removeMin t) := by
  induction t with
  | nullptr => simp [min] at h
  | node e l r ihl _ =>
    cases l with
    | nullptr =>
      simp only [min, node.injEq] at h
      obtain ⟨rfl, rfl, rfl⟩ := h
      simp [inorder, removeMin]
    | node el ll lr =>
      simp only [min] at h
      obtain ⟨h1, h2⟩ := ihl h
      refine ⟨h1, ?_⟩
      simp only [removeMin]
      rw [inorder, h2, inorder]
      simp

theorem numNodes_removeMin (t : node_ptr K V) (h : t ≠ nullptr) :
    numNodes (removeMin t) + 1 = numNodes t := by
  induction t with
  | nullptr => exact absurd rfl h
  | node e l r ihl _ =>
    cases l with
    | nullptr => simp [removeMin, numNodes]; omega
    | node el ll lr =>
      have := ihl (by simp)
      simp only [removeMin, numNodes] at this ⊢
      omega

/-- The counter and the number of nodes move together in `insert`: either both are
unchanged or both go up by one. -/
theorem insert_count (comp : K → K → Bool) (x : K × V) (t : node_ptr K V) (s : Nat) :
    ((insert comp x t s).2 = s ∧ numNodes (insert comp x t s).1 = numNodes t) ∨
      ((insert comp x t s).2 = s + 1 ∧ numNodes (insert comp x t s).1 = numNodes t + 1) := by
  induction t with
  | nullptr => simp [insert, numNodes]
  | node e l r ihl ihr =>
    simp only [insert]
    split_ifs with h1 h2
    · rcases ihl with ⟨h, h'⟩ | ⟨h, h'⟩
      · left; simp [numNodes, h, h']
      · right; simp only [numNodes, h, h', true_and]; omega
    · rcases ihr with ⟨h, h'⟩ | ⟨h, h'⟩
      · left; simp [numNodes, h, h']
      · right; simp only [numNodes, h, h', true_and]; omega
    · left; simp [numNodes]

theorem clear_eq_nullptr (t : node_ptr K V) : clear t = nullptr := by
  cases t <;> simp [clear]

theorem mem_inorder_of_subtreeAt {p : List Dir} {t : node_ptr K V} {e : K × V}
    {l r : node_ptr K V} (h : subtreeAt p t = node e l r) : e ∈ inorder t := by
  induction p generalizing t with
  | nil =>
    simp only [subtreeAt] at h
    subst h
    simp [inorder]
  | cons d p ih =>
    cases t with
    | nullptr => simp [subtreeAt] at h
    | node e0 l0 r0 =>
      cases d with
      | left =>
        simp only [subtreeAt] at h
        simp [inorder, ih h]
      | right =>
        simp only [subtreeAt] at h
        simp [inorder, ih h]

theorem numNodes_eq_zero_iff (t : node_ptr K V) : t.numNodes = 0 ↔ t = nullptr := by
  cases t <;> simp [numNodes]

variable [LinearOrder K]

theorem mem_inorder_insert (x : K × V) (t : node_ptr K V) (s : Nat) (y : K × V)
    (hy : y ∈ inorder (insert std.less x t s).1) : y.1 = x.1 ∨ y ∈ inorder t := by
  induction t with
  | nullptr =>
    simp only [insert, inorder, List.nil_append, List.mem_singleton] at hy
    exact Or.inl (by rw [hy])
  | node e l r ihl ihr =>
    simp only [insert] at hy
    split_ifs at hy with h1 h2
    · simp only [inorder, List.mem_append, List.mem_cons] at hy ⊢
      rcases hy with hy | hy | hy
      · rcases ihl hy with h | h
        · exact Or.inl h
        · exact Or.inr (Or.inl h)
      · exact Or.inr (Or.inr (Or.inl hy))
      · exact Or.inr (Or.inr (Or.inr hy))
    · simp only [inorder, List.mem_append, List.mem_cons] at hy ⊢
      rcases hy with hy | hy | hy
      · exact Or.inr (Or.inl hy)
      · exact Or.inr (Or.inr (Or.inl hy))
      · rcases ihr hy with h | h
        · exact Or.inl h
        · exact Or.inr (Or.inr (Or.inr h))
    · rw [std.less_eq_true_iff] at h1 h2
      simp only [inorder, List.mem_append, List.mem_cons] at hy ⊢
      rcases hy with hy | hy | hy
      · exact Or.inr (Or.inl hy)
      · left
        rw [hy]
        exact le_antisymm (not_lt.mp h1) (not_lt.mp h2)
      · exact Or.inr (Or.inr (Or.inr hy))

/-- The keys of the tree after `insert`: the keys before, and the inserted key. -/
theorem mem_keys_insert (x : K × V) (t : node_ptr K V) (s : Nat) (k : K) :
    k ∈ (inorder (insert std.less x t s).1).map Prod.fst ↔
      k = x.1 ∨ k ∈ (inorder t).map Prod.fst := by
  induction t with
  | nullptr => simp [insert, inorder]
  | node e l r ihl ihr =>
    simp only [insert]
    split_ifs with h1 h2
    · simp only [inorder, List.map_append, List.map_cons, List.mem_append, List.mem_cons, ihl]
      tauto
    · simp only [inorder, List.map_append, List.map_cons, List.mem_append, List.mem_cons, ihr]
      tauto
    · rw [std.less_eq_true_iff] at h1 h2
      have hxe : x.1 = e.1 := le_antisymm (not_lt.mp h2) (not_lt.mp h1)
      simp only [inorder, List.map_append, List.map_cons, List.mem_append, List.mem_cons, hxe]
      tauto

/-- Private `insert` keeps BST order (default comparator). -/
theorem BSTOrder_insert (x : K × V) (t : node_ptr K V) (s : Nat) (h : BSTOrder t) :
    BSTOrder (insert std.less x t s).1 := by
  induction t with
  | nullptr => simp [insert, BSTOrder, inorder]
  | node e l r ihl ihr =>
    obtain ⟨hl, hr, hbl, hbr⟩ := h
    simp only [insert]
    split_ifs with h1 h2
    · rw [std.less_eq_true_iff] at h1
      refine ⟨?_, hr, ihl hbl, hbr⟩
      intro y hy
      rcases mem_inorder_insert x l s y hy with h | h
      · rw [h]; exact h1
      · exact hl y h
    · rw [std.less_eq_true_iff] at h2
      refine ⟨hl, ?_, hbl, ihr hbr⟩
      intro y hy
      rcases mem_inorder_insert x r s y hy with h | h
      · rw [h]; exact h2
      · exact hr y h
    · exact ⟨hl, hr, hbl, hbr⟩

/-- BST order says that the keys of the in-order traversal are strictly increasing. -/
theorem BSTOrder_iff_sorted (t : node_ptr K V) :
    BSTOrder t ↔ ((inorder t).map Prod.fst).Pairwise (· < ·) := by
  induction t with
  | nullptr => simp [BSTOrder, inorder]
  | node e l r ihl ihr =>
    simp only [BSTOrder, inorder, List.map_append, List.map_cons, List.pairwise_append,
      List.pairwise_cons, List.mem_map, List.mem_cons, ihl, ihr]
    constructor
    · rintro ⟨hl, hr, hpl, hpr⟩
      refine ⟨hpl, ⟨?_, hpr⟩, ?_⟩
      · rintro a ⟨y, hy, rfl⟩
        exact hr y hy
      · rintro a ⟨y, hy, rfl⟩ b (rfl | ⟨z, hz, rfl⟩)
        · exact hl y hy
        · exact lt_trans (hl y hy) (hr z hz)
    · rintro ⟨hpl, ⟨hr, hpr⟩, hl⟩
      refine ⟨?_, ?_, hpl, hpr⟩
      · intro y hy
        exact hl y.1 ⟨y, hy, rfl⟩ e.1 (Or.inl rfl)
      · intro y hy
        exact hr y.1 ⟨y, hy, rfl⟩

/-- With BST order, `contains` (default comparator) tells whether the key is in the tree. -/
theorem contains_iff_mem_keys (k : K) (t : node_ptr K V) (h : BSTOrder t) :
    contains std.less k t = true ↔ k ∈ (inorder t).map Prod.fst := by
  induction t with
  | nullptr => simp [contains, inorder]
  | node e l r ihl ihr =>
    obtain ⟨hl, hr, hbl, hbr⟩ := h
    simp only [contains, inorder, List.map_append, List.map_cons, List.mem_append,
      List.mem_cons, List.mem_map]
    split_ifs with h1 h2
    · rw [std.less_eq_true_iff] at h1
      rw [ihl hbl, List.mem_map]
      constructor
      · exact fun h => Or.inl h
      · rintro (h | rfl | ⟨y, hy, rfl⟩)
        · exact h
        · exact absurd h1 (lt_irrefl _)
        · exact absurd (lt_trans h1 (hr y hy)) (lt_irrefl _)
    · rw [std.less_eq_true_iff] at h2
      rw [ihr hbr, List.mem_map]
      constructor
      · exact fun h => Or.inr (Or.inr h)
      · rintro (⟨y, hy, rfl⟩ | rfl | h)
        · exact absurd (lt_trans h2 (hl y hy)) (lt_irrefl _)
        · exact absurd h2 (lt_irrefl _)
        · exact h
    · rw [std.less_eq_true_iff] at h1 h2
      simp only [true_iff]
      exact Or.inr (Or.inl (le_antisymm (not_lt.mp h2) (not_lt.mp h1)))

/-- Erasing the key of the leftmost node removes exactly that node and decrements the
counter once. -/
theorem erase_min {t : node_ptr K V} {m : K × V} {ml mr : node_ptr K V} (s : Nat)
    (hb : BSTOrder t) (h : min t = node m ml mr) :
    erase m.1 t s = (removeMin t, s - 1) := by
  induction t with
  | nullptr => simp [min] at h
  | node e l r ihl _ =>
    obtain ⟨hl, _, hbl, _⟩ := hb
    cases l with
    | nullptr =>
      simp only [min, node.injEq] at h
      obtain ⟨rfl, _, _⟩ := h
      simp [erase, removeMin, isNull]
    | node el ll lr =>
      simp only [min] at h
      have hm : m ∈ inorder (node el ll lr) := by
        rw [(inorder_of_min h).2]
        exact List.mem_cons_self _ _
      have hlt : m.1 < e.1 := hl m hm
      rw [erase, if_pos hlt, ihl hbl h]
      simp [removeMin]

/-- Erasing an absent key changes nothing. -/
theorem erase_of_not_contains (k : K) (t : node_ptr K V) (s : Nat)
    (h : contains std.less k t = false) : erase k t s = (t, s) := by
  induction t with
  | nullptr => simp [erase]
  | node e l r ihl ihr =>
    simp only [contains] at h
    split_ifs at h with h1 h2
    · rw [std.less_eq_true_iff] at h1
      rw [erase, if_pos h1, ihl h]
    · rw [std.less_eq_true_iff] at h1 h2
      rw [erase, if_neg h1, if_pos h2, ihr h]

theorem erase_left_null (k : K) (e : K × V) (r : node_ptr K V) (s : Nat)
    (h1 : ¬ k < e.1) (h2 : ¬ e.1 < k) : erase k (node e nullptr r) s = (r, s - 1) := by
  rw [erase, if_neg h1, if_neg h2]
  simp [isNull]

theorem erase_right_null (k : K) (e : K × V) (l : node_ptr K V) (s : Nat)
    (h1 : ¬ k < e.1) (h2 : ¬ e.1 < k) : erase k (node e l nullptr) s = (l, s - 1) := by
  rw [erase, if_neg h1, if_neg h2]
  cases l <;> simp [isNull]

theorem erase_two_children (k : K) (e : K × V) (l r : node_ptr K V) (s : Nat)
    (h1 : ¬ k < e.1) (h2 : ¬ e.1 < k) (hl : l ≠ nullptr) (hr : r ≠ nullptr) :
    ∃ m ml mr, min r = node m ml mr ∧
      erase k (node e l r) s = (node m l (erase m.1 r s).1, (erase m.1 r s).2) := by
  cases hmin : min r with
  | nullptr => exact absurd ((min_eq_nullptr_iff r).mp hmin) hr
  | node m ml mr =>
    refine ⟨m, ml, mr, rfl, ?_⟩
    rw [erase, if_neg h1, if_neg h2]
    cases l with
    | nullptr => exact absurd rfl hl
    | node el ll lr =>
      cases r with
      | nullptr => exact absurd rfl hr
      | node er rl rr =>
        simp only [isNull, Bool.not_false, Bool.and_self, if_true]
        rw [hmin]

/-- The in-order traversal after `erase`: the traversal before, without the entry of the
erased key. -/
theorem inorder_erase (k : K) (t : node_ptr K V) (s : Nat) (hb : BSTOrder t) :
    inorder (erase k t s).1 = (inorder t).filter (fun y => decide (y.1 ≠ k)) := by
  induction t with
  | nullptr => simp [erase, inorder]
  | node e l r ihl ihr =>
    obtain ⟨hl, hr, hbl, hbr⟩ := hb
    rcases lt_trichotomy k e.1 with h1 | h1 | h1
    · have he : decide (e.1 ≠ k) = true := by simpa using (ne_of_gt h1)
      have hr2 : (inorder r).filter (fun y => decide (y.1 ≠ k)) = inorder r := by
        rw [List.filter_eq_self]
        intro y hy
        simpa using ne_of_gt (lt_trans h1 (hr y hy))
      rw [erase, if_pos h1]
      simp only [inorder, List.filter_append, List.filter_cons, he, if_true, hr2, ihl hbl]
    · have hn : ¬ k < e.1 := by rw [h1]; exact lt_irrefl _
      have hn2 : ¬ e.1 < k := by rw [h1]; exact lt_irrefl _
      have he : decide (e.1 ≠ k) = false := by simp [h1]
      have hl2 : (inorder l).filter (fun y => decide (y.1 ≠ k)) = inorder l := by
        rw [List.filter_eq_self]
        intro y hy
        simpa [h1] using ne_of_lt (hl y hy)
      have hr2 : (inorder r).filter (fun y => decide (y.1 ≠ k)) = inorder r := by
        rw [List.filter_eq_self]
        intro y hy
        simpa [h1] using ne_of_gt (hr y hy)
      have hrhs : (inorder (node e l r)).filter (fun y => decide (y.1 ≠ k)) =
          inorder l ++ inorder r := by
        simp only [inorder, List.filter_append, List.filter_cons, he, hl2, hr2]
        simp
      rw [hrhs]
      by_cases hln : l = nullptr
      · subst hln
        rw [erase_left_null k e r s hn hn2]
        simp [inorder]
      · by_cases hrn : r = nullptr
        · subst hrn
          rw [erase_right_null k e l s hn hn2]
          simp [inorder]
        · obtain ⟨m, ml, mr, hmin, heq⟩ := erase_two_children k e l r s hn hn2 hln hrn
          rw [heq, erase_min s hbr hmin]
          simp only [inorder]
          rw [(inorder_of_min hmin).2]
    · have hn : ¬ k < e.1 := not_lt.mpr (le_of_lt h1)
      have he : decide (e.1 ≠ k) = true := by simpa using (ne_of_lt h1)
      have hl2 : (inorder l).filter (fun y => decide (y.1 ≠ k)) = inorder l := by
        rw [List.filter_eq_self]
        intro y hy
        simpa using ne_of_lt (lt_trans (hl y hy) h1)
      rw [erase, if_neg hn, if_pos h1]
      simp only [inorder, List.filter_append, List.filter_cons, he, if_true, hl2, ihr hbr]

/-- Private `erase` keeps BST order. -/
theorem BSTOrder_erase (k : K) (t : node_ptr K V) (s : Nat) (hb : BSTOrder t) :
    BSTOrder (erase k t s).1 := by
  rw [BSTOrder_iff_sorted, inorder_erase k t s hb]
  exact ((BSTOrder_iff_sorted t).mp hb).sublist
    (List.Sublist.map _ (List.filter_sublist _))

/-- The counter after `erase`: one less when the key was present, unchanged otherwise. -/
theorem erase_snd (k : K) (t : node_ptr K V) (s : Nat) (hb : BSTOrder t) :
    (erase k t s).2 = if contains std.less k t = true then s - 1 else s := by
  induction t with
  | nullptr => simp [erase, contains]
  | node e l r ihl ihr =>
    obtain ⟨hl, hr, hbl, hbr⟩ := hb
    rcases lt_trichotomy k e.1 with h1 | h1 | h1
    · have hc : contains std.less k (node e l r) = contains std.less k l := by
        simp [contains, std.less, h1]
      rw [erase, if_pos h1, hc]
      exact ihl hbl
    · have hn : ¬ k < e.1 := by rw [h1]; exact lt_irrefl _
      have hn2 : ¬ e.1 < k := by rw [h1]; exact lt_irrefl _
      have hc : contains std.less k (node e l r) = true := by
        simp [contains, std.less, hn, hn2]
      rw [hc, if_pos rfl]
      by_cases hln : l = nullptr
      · subst hln
        rw [erase_left_null k e r s hn hn2]
      · by_cases hrn : r = nullptr
        · subst hrn
          rw [erase_right_null k e l s hn hn2]
        · obtain ⟨m, ml, mr, hmin, heq⟩ := erase_two_children k e l r s hn hn2 hln hrn
          rw [heq, erase_min s hbr hmin]
    · have hn : ¬ k < e.1 := not_lt.mpr (le_of_lt h1)
      have hc : contains std.less k (node e l r) = contains std.less k r := by
        simp [contains, std.less, hn, h1]
      rw [erase, if_neg hn, if_pos h1, hc]
      exact ihr hbr

/-- The counter and the number of nodes move together in `erase`: either both are unchanged
or both go down by one. -/
theorem erase_count (k : K) (t : node_ptr K V) (s : Nat) :
    ((erase k t s).2 = s ∧ numNodes (erase k t s).1 = numNodes t) ∨
      ((erase k t s).2 = s - 1 ∧ numNodes (erase k t s).1 + 1 = numNodes t) := by
  induction t generalizing k with
  | nullptr => simp [erase]
  | node e l r ihl ihr =>
    by_cases h1 : k < e.1
    · rw [erase, if_pos h1]
      rcases ihl k with ⟨h, h'⟩ | ⟨h, h'⟩
      · left; simp [numNodes, h, h']
      · right; simp only [numNodes, h, true_and]; omega
    · by_cases h2 : e.1 < k
      · rw [erase, if_neg h1, if_pos h2]
        rcases ihr k with ⟨h, h'⟩ | ⟨h, h'⟩
        · left; simp [numNodes, h, h']
        · right; simp only [numNodes, h, true_and]; omega
      · by_cases hln : l = nullptr
        · subst hln
          rw [erase_left_null k e r s h1 h2]
          right; simp only [numNodes, true_and]; omega
        · by_cases hrn : r = nullptr
          · subst hrn
            rw [erase_right_null k e l s h1 h2]
            right; simp only [numNodes, true_and]
          · obtain ⟨m, ml, mr, hmin, heq⟩ := erase_two_children k e l r s h1 h2 hln hrn
            rw [heq]
            rcases ihr m.1 with ⟨h, h'⟩ | ⟨h, h'⟩
            · left; simp [numNodes, h, h']
            · right; simp only [numNodes, h, true_and]; omega

theorem find_insert_self (k : K) (v : V) (t : node_ptr K V) (s : Nat) :
    ∃ l r, find k (insert std.less (k, v) t s).1 = node (k, v) l r := by
  induction t with
  | nullptr => exact ⟨nullptr, nullptr, by simp [insert, find]⟩
  | node e l r ihl ihr =>
    rcases lt_trichotomy k e.1 with h | h | h
    · obtain ⟨l1, r1, h1⟩ := ihl
      refine ⟨l1, r1, ?_⟩
      simp only [insert, std.less, h, decide_True, if_true]
      rw [find, if_neg (not_lt.mpr (le_of_lt h)), if_pos h, h1]
    · refine ⟨l, r, ?_⟩
      simp [insert, std.less, h, find]
    · obtain ⟨l1, r1, h1⟩ := ihr
      refine ⟨l1, r1, ?_⟩
      simp only [insert, std.less, h, not_lt.mpr (le_of_lt h), decide_True, decide_False,
        if_true]
      simp only [Bool.false_eq_true, if_false]
      rw [find, if_pos h, h1]

theorem contains_insert_self (k : K) (v : V) (t : node_ptr K V) (s : Nat) :
    contains std.less k (insert std.less (k, v) t s).1 = true := by
  induction t with
  | nullptr => simp [insert, contains, std.less]
  | node e l r ihl ihr =>
    rcases lt_trichotomy k e.1 with h | h | h
    · simpa [insert, std.less, h, contains] using ihl
    · simp [insert, std.less, h, contains]
    · simpa [insert, std.less, h, not_lt.mpr (le_of_lt h), contains] using ihr

theorem find_insert_of_ne (k k' : K) (v : V) (t : node_ptr K V) (s : Nat) (hne : k' ≠ k) :
    (find k' (insert std.less (k, v) t s).1).element? = (find k' t).element? := by
  induction t with
  | nullptr =>
    rcases lt_or_gt_of_ne hne with h | h
    · simp [insert, find, h, not_lt.mpr (le_of_lt h), element?]
    · simp [insert, find, h, element?]
  | node e l r ihl ihr =>
    rcases lt_trichotomy k e.1 with h | h | h
    · simp only [insert, std.less, h, decide_True, if_true]
      simp only [find]
      split_ifs
      · rfl
      · exact ihl
      · rfl
    · simp only [insert, std.less, h, lt_irrefl, decide_False, Bool.false_eq_true, if_false]
      simp only [find]
      split_ifs with h1 h2
      · rfl
      · rfl
      · exact absurd (le_antisymm (not_lt.mp h1) (not_lt.mp h2)) (by rw [← h]; exact hne)
    · simp only [insert, std.less, h, not_lt.mpr (le_of_lt h), decide_True, decide_False,
        Bool.false_eq_true, if_false, if_true]
      simp only [find]
      split_ifs
      · exact ihr
      · rfl
      · rfl

theorem contains_insert_of_ne (k k' : K) (v : V) (t : node_ptr K V) (s : Nat) (hne : k' ≠ k) :
    contains std.less k' (insert std.less (k, v) t s).1 = contains std.less k' t := by
  induction t with
  | nullptr =>
    rcases lt_or_gt_of_ne hne with h | h
    · simp [insert, contains, std.less, h]
    · simp [insert, contains, std.less, h, not_lt.mpr (le_of_lt h)]
  | node e l r ihl ihr =>
    rcases lt_trichotomy k e.1 with h | h | h
    · simp only [insert, std.less, h, decide_True, if_true]
      simp only [contains]
      split_ifs
      · exact ihl
      · rfl
      · rfl
    · simp [insert, std.less, h, contains]
    · simp only [insert, std.less, h, not_lt.mpr (le_of_lt h), decide_True, decide_False,
        Bool.false_eq_true, if_false, if_true]
      simp only [contains]
      split_ifs
      · rfl
      · exact ihr
      · rfl

/-- The two-children case of `erase` at a node anywhere in the tree. -/
theorem erase_at_two_children {p : List Dir} {t : node_ptr K V} {e : K × V}
    {l r : node_ptr K V} (s : Nat) (hb : BSTOrder t) (hsub : subtreeAt p t = node e l r)
    (hl : l ≠ nullptr) (hr : r ≠ nullptr) :
    ∃ m mr, min r = node m nullptr mr ∧
      erase e.1 t s = (replaceAt p t (node m l (removeMin r)), s - 1) := by
  induction p generalizing t with
  | nil =>
    simp only [subtreeAt] at hsub
    subst hsub
    obtain ⟨m, ml, mr, hmin, heq⟩ :=
      erase_two_children e.1 e l r s (lt_irrefl _) (lt_irrefl _) hl hr
    have hml := (inorder_of_min hmin).1
    subst hml
    refine ⟨m, mr, hmin, ?_⟩
    rw [heq, erase_min s hb.2.2.2 hmin]
    rfl
  | cons d p ih =>
    cases t with
    | nullptr => simp [subtreeAt] at hsub
    | node e0 l0 r0 =>
      obtain ⟨hl0, hr0, hbl0, hbr0⟩ := hb
      cases d with
      | left =>
        simp only [subtreeAt] at hsub
        have hlt : e.1 < e0.1 := hl0 e (mem_inorder_of_subtreeAt hsub)
        obtain ⟨m, mr, hmin, heq⟩ := ih hbl0 hsub
        refine ⟨m, mr, hmin, ?_⟩
        rw [erase, if_pos hlt, heq]
        rfl
      | right =>
        simp only [subtreeAt] at hsub
        have hlt : e0.1 < e.1 := hr0 e (mem_inorder_of_subtreeAt hsub)
        obtain ⟨m, mr, hmin, heq⟩ := ih hbr0 hsub
        refine ⟨m, mr, hmin, ?_⟩
        rw [erase, if_neg (not_lt.mpr (le_of_lt hlt)), if_pos hlt, heq]
        rfl

end node_ptr

end BinarySearchTreeLemmas

section BinarySearchTreeClaims

variable {K : Type u} {V : Type v} [LinearOrder K]

namespace BinarySearchTree

theorem run_cons (b : BinarySearchTree K V) (op : Op K V) (ops : List (Op K V)) :
    b.run (op :: ops) = (b.step op).run ops := rfl

theorem BSTOrder_step (b : BinarySearchTree K V) (op : Op K V)
    (h : node_ptr.BSTOrder b._root) : node_ptr.BSTOrder (b.step op)._root := by
  cases op with
  | insert x => exact node_ptr.BSTOrder_insert x b._root b._size h
  | erase k => exact node_ptr.BSTOrder_erase k b._root b._size h
  | clear =>
    simp only [step, clear, node_ptr.clear_eq_nullptr]
    trivial

theorem BSTOrder_run (b : BinarySearchTree K V) (ops : List (Op K V))
    (h : node_ptr.BSTOrder b._root) : node_ptr.BSTOrder (b.run ops)._root := by
  induction ops generalizing b with
  | nil => exact h
  | cons op ops ih =>
    rw [run_cons]
    exact ih _ (BSTOrder_step b op h)

theorem size_step (b : BinarySearchTree K V) (op : Op K V)
    (h : b._size = b._root.numNodes) : (b.step op)._size = (b.step op)._root.numNodes := by
  cases op with
  | insert x =>
    simp only [step, insert]
    rcases node_ptr.insert_count std.less x b._root b._size with ⟨h1, h2⟩ | ⟨h1, h2⟩
    · rw [h1, h2, h]
    · rw [h1, h2, h]
  | erase k =>
    simp only [step, erase]
    rcases node_ptr.erase_count k b._root b._size with ⟨h1, h2⟩ | ⟨h1, h2⟩
    · rw [h1, h2, h]
    · rw [h1]
      omega
  | clear => simp [step, clear, node_ptr.clear_eq_nullptr, node_ptr.numNodes]

theorem size_run (b : BinarySearchTree K V) (ops : List (Op K V))
    (h : b._size = b._root.numNodes) : (b.run ops)._size = (b.run ops)._root.numNodes := by
  induction ops generalizing b with
  | nil => exact h
  | cons op ops ih =>
    rw [run_cons]
    exact ih _ (size_step b op h)

theorem tally_run (b : BinarySearchTree K V) (ops : List (Op K V)) (acc : Nat × Nat)
    (h : b._size = b._root.numNodes) (hacc : b._size + acc.2 = acc.1) :
    (b.run ops)._size + (tally b ops acc).2 = (tally b ops acc).1 := by
  induction ops generalizing b acc with
  | nil => exact hacc
  | cons op ops ih =>
    have hs := size_step b op h
    rw [run_cons]
    cases op with
    | insert x =>
      rw [tally]
      refine ih _ _ hs ?_
      have hc := node_ptr.insert_count std.less x b._root b._size
      simp only [step, insert] at hs ⊢
      rcases hc with ⟨h1, h2⟩ | ⟨h1, h2⟩
      · rw [h1]
        split_ifs <;> omega
      · rw [h1]
        split_ifs <;> omega
    | erase k =>
      rw [tally]
      refine ih _ _ hs ?_
      have hc := node_ptr.erase_count k b._root b._size
      simp only [step, erase] at hs ⊢
      rcases hc with ⟨h1, h2⟩ | ⟨h1, h2⟩
      · rw [h1]
        split_ifs <;> omega
      · rw [h1]
        split_ifs <;> omega
    | clear =>
      rw [tally]
      refine ih _ _ hs ?_
      simp [step, clear]

/-- C1. After every sequence of `insert`, `erase` (and `clear`) calls on an initially empty
tree with the default comparator, the tree satisfies BST order: at every node the keys of
the left subtree are less than the node's key and the keys of the right subtree are
greater; in particular the keys of the in-order traversal are strictly increasing, hence
unique. -/
theorem bst_order_after_operations (ops : List (Op K V)) :
    node_ptr.BSTOrder ((init : BinarySearchTree K V).run ops)._root ∧
      (((init : BinarySearchTree K V).run ops)._root.inorder.map Prod.fst).Nodup := by
  have h : node_ptr.BSTOrder ((init : BinarySearchTree K V).run ops)._root :=
    BSTOrder_run init ops trivial
  refine ⟨h, ?_⟩
  have hs := (node_ptr.BSTOrder_iff_sorted _).mp h
  exact hs.imp (fun hab => ne_of_lt hab)

/-- C3. After `insert((k, v))` (default comparator), `find(k)` locates a node that stores
the key `k` and the value `v`, and `contains(k)` is true; for every other key the node
element located by `find`, the value returned by `find` and the answer of `contains` are
the same as before the insert.  (BST order of the tree is not needed.) -/
theorem find_contains_after_insert (b : BinarySearchTree K V) (k : K) (v : V) :
    (∃ l r, node_ptr.find k (b.insert std.less (k, v))._root = node_ptr.node (k, v) l r) ∧
      (b.insert std.less (k, v)).find k = some v ∧
      (b.insert std.less (k, v)).contains std.less k = true ∧
      ∀ k1, k1 ≠ k →
        (node_ptr.find k1 (b.insert std.less (k, v))._root).element? =
            (node_ptr.find k1 b._root).element? ∧
          (b.insert std.less (k, v)).find k1 = b.find k1 ∧
          (b.insert std.less (k, v)).contains std.less k1 = b.contains std.less k1 := by
  obtain ⟨l, r, h⟩ := node_ptr.find_insert_self k v b._root b._size
  refine ⟨⟨l, r, h⟩, ?_, node_ptr.contains_insert_self k v b._root b._size, ?_⟩
  · simp only [find, insert, h]
  · intro k1 hne
    have h1 := node_ptr.find_insert_of_ne k k1 v b._root b._size hne
    refine ⟨h1, ?_, node_ptr.contains_insert_of_ne k k1 v b._root b._size hne⟩
    simp only [find, insert] at h1 ⊢
    cases hf : node_ptr.find k1 (node_ptr.insert std.less (k, v) b._root b._size).1 <;>
      cases hg : node_ptr.find k1 b._root <;>
      simp_all [node_ptr.element?]

/-- C4. On a tree in BST order, `erase(k)` turns the in-order traversal into the traversal
before with the entry of key `k` removed (the other pairs kept, in the same order).  If `k`
was present the counter is decremented once, so `size()` goes down by exactly one when it
counted the nodes, and `contains(k)` becomes false; if `k` was absent the tree and `size()`
are unchanged. -/
theorem erase_inorder_size (b : BinarySearchTree K V) (k : K)
    (hb : node_ptr.BSTOrder b._root) :
    (b.erase k)._root.inorder = b._root.inorder.filter (fun y => decide (y.1 ≠ k)) ∧
      (b.contains std.less k = true →
        (b.erase k).size = b.size - 1 ∧
          (b.size = b._root.numNodes →
            (b.erase k).size + 1 = b.size ∧ (b.erase k).size = (b.erase k)._root.numNodes) ∧
          (b.erase k).contains std.less k = false) ∧
      (b.contains std.less k = false → b.erase k = b) := by
  refine ⟨node_ptr.inorder_erase k b._root b._size hb, ?_, ?_⟩
  · intro hc
    have hsnd := node_ptr.erase_snd k b._root b._size hb
    simp only [contains] at hc
    rw [hc, if_pos rfl] at hsnd
    refine ⟨hsnd, ?_, ?_⟩
    · intro hsz
      have hpos : 0 < b._root.numNodes := by
        rcases Nat.eq_zero_or_pos b._root.numNodes with h0 | h0
        · rw [(node_ptr.numNodes_eq_zero_iff _).mp h0] at hc
          simp [node_ptr.contains] at hc
        · exact h0
      have hcount := size_step b (Op.erase k) hsz
      simp only [step] at hcount
      simp only [size, erase] at hsz hcount ⊢
      constructor
      · rw [hsnd]; omega
      · exact hcount
    · have hb2 := node_ptr.BSTOrder_erase k b._root b._size hb
      have hiff := node_ptr.contains_iff_mem_keys k _ hb2
      rw [node_ptr.inorder_erase k b._root b._size hb] at hiff
      simp only [contains, erase]
      rw [Bool.eq_false_iff]
      intro hcon
      have := hiff.mp hcon
      simp at this
  · intro hc
    simp only [contains] at hc
    simp only [erase, node_ptr.erase_of_not_contains k b._root b._size hc]

/-- C5. On a tree in BST order, erasing the key stored at a node with two children (the
node reached from the root along the path `p`) keeps that node in place, with its element
replaced by the element `m` of the leftmost node of its right subtree, its left subtree
unchanged and its right subtree replaced by the old right subtree without that leftmost
node; nothing else changes, exactly one node disappears and the counter is decremented
exactly once. -/
theorem erase_two_children_successor (b : BinarySearchTree K V) (p : List node_ptr.Dir)
    (e : K × V) (l r : node_ptr K V) (hb : node_ptr.BSTOrder b._root)
    (hsub : node_ptr.subtreeAt p b._root = node_ptr.node e l r)
    (hl : l ≠ node_ptr.nullptr) (hr : r ≠ node_ptr.nullptr) :
    ∃ m mr, node_ptr.min r = node_ptr.node m node_ptr.nullptr mr ∧
      r.inorder.head? = some m ∧
      (b.erase e.1)._root =
        node_ptr.replaceAt p b._root (node_ptr.node m l (node_ptr.removeMin r)) ∧
      (node_ptr.removeMin r).numNodes + 1 = r.numNodes ∧
      (b.erase e.1)._root.numNodes + 1 = b._root.numNodes ∧
      (b.erase e.1)._size = b._size - 1 := by
  obtain ⟨m, mr, hmin, heq⟩ := node_ptr.erase_at_two_children b._size hb hsub hl hr
  refine ⟨m, mr, hmin, ?_, ?_, node_ptr.numNodes_removeMin r hr, ?_, ?_⟩
  · rw [(node_ptr.inorder_of_min hmin).2]
    rfl
  · simp only [erase, heq]
  · rcases node_ptr.erase_count e.1 b._root b._size with ⟨h1, h2⟩ | ⟨h1, h2⟩
    · have hin := node_ptr.inorder_erase e.1 b._root b._size hb
      have hmem := node_ptr.mem_inorder_of_subtreeAt hsub
      have hlen : (node_ptr.erase e.1 b._root b._size).1.inorder.length
          < b._root.inorder.length := by
        rw [hin]
        exact List.length_filter_lt_length_iff_exists.mpr ⟨e, hmem, by simp⟩
      have hnum : ∀ t : node_ptr K V, t.inorder.length = t.numNodes := by
        intro t
        induction t with
        | nullptr => rfl
        | node e l r ihl ihr => simp [node_ptr.inorder, node_ptr.numNodes, ihl, ihr]; omega
      rw [hnum, hnum, h2] at hlen
      exact absurd hlen (lt_irrefl _)
    · simpa only [erase] using h2
  · simp only [erase, heq]

/-- C9. Inserting a list of pairs one by one into an empty tree (default comparator) gives
a tree whose in-order traversal lists the keys in strictly increasing order, hence each
once, and whose keys are exactly the keys of the input. -/
theorem inorder_after_inserts (xs : List (K × V)) :
    (((init : BinarySearchTree K V).run (xs.map Op.insert))._root.inorder.map
        Prod.fst).Sorted (· < ·) ∧
      (((init : BinarySearchTree K V).run (xs.map Op.insert))._root.inorder.map
        Prod.fst).Nodup ∧
      ∀ k, k ∈ ((init : BinarySearchTree K V).run (xs.map Op.insert))._root.inorder.map
        Prod.fst ↔ k ∈ xs.map Prod.fst := by
  have hs := (node_ptr.BSTOrder_iff_sorted _).mp
    (BSTOrder_run (init : BinarySearchTree K V) (xs.map Op.insert) trivial)
  refine ⟨hs, hs.imp (fun hab => ne_of_lt hab), ?_⟩
  clear hs
  have key : ∀ (b : BinarySearchTree K V) (k : K),
      k ∈ (b.run (xs.map Op.insert))._root.inorder.map Prod.fst ↔
        k ∈ b._root.inorder.map Prod.fst ∨ k ∈ xs.map Prod.fst := by
    induction xs with
    | nil => intro b k; simp [run]
    | cons x xs ih =>
      intro b k
      rw [List.map_cons, run_cons, ih]
      simp only [step, insert, node_ptr.mem_keys_insert, List.map_cons, List.mem_cons]
      tauto
  intro k
  rw [key]
  simp [init, node_ptr.inorder]

/-- C10. After every sequence of `insert`, `erase` and `clear` calls on an initially empty
tree (default comparator), `size()` is the number of nodes of the tree, which is the number
of inserts that created a node minus the number of erases that removed one since the last
`clear`; `empty()` is true exactly when the tree has no node; and `clear()` leaves a tree
with no node and `size() == 0`. -/
theorem size_counts_nodes (ops : List (Op K V)) :
    ((init : BinarySearchTree K V).run ops).size =
        ((init : BinarySearchTree K V).run ops)._root.numNodes ∧
      ((init : BinarySearchTree K V).run ops).size + (tally init ops (0, 0)).2 =
        (tally (init : BinarySearchTree K V) ops (0, 0)).1 ∧
      (((init : BinarySearchTree K V).run ops).empty = true ↔
        ((init : BinarySearchTree K V).run ops)._root = node_ptr.nullptr) ∧
      (((init : BinarySearchTree K V).run ops).clear._root = node_ptr.nullptr ∧
        ((init : BinarySearchTree K V).run ops).clear.size = 0) := by
  have h := size_run (init : BinarySearchTree K V) ops rfl
  refine ⟨h, tally_run init ops (0, 0) rfl rfl, ?_, ?_⟩
  · simp only [empty, beq_iff_eq]
    rw [h, node_ptr.numNodes_eq_zero_iff]
  · simp [clear, node_ptr.clear_eq_nullptr, size]

end BinarySearchTree

end BinarySearchTreeClaims

/-! ## Theorems on PriorityQueue -/

section PriorityQueueLemmas

variable {T : Type}

namespace StrictWeakOrder

variable {comp : T → T → Bool}

theorem asymm (h : StrictWeakOrder comp) {a b : T} (hab : comp a b = true) :
    comp b a = false := by
  cases hba : comp b a with
  | false => rfl
  | true =>
    have := h.trans a b a hab hba
    rw [h.irrefl] at this
    exact absurd this (by simp)

/-- Negative transitivity: if `a` does not rank below `b` and `b` does not rank below `c`,
then `a` does not rank below `c`. -/
theorem neg_trans (h : StrictWeakOrder comp) {a b c : T} (hab : comp a b = false)
    (hbc : comp b c = false) : comp a c = false := by
  cases hac : comp a c with
  | false => rfl
  | true =>
    have hba : comp b a = false := by
      cases hba : comp b a with
      | false => rfl
      | true =>
        have := h.trans b a c hba hac
        rw [hbc] at this
        exact absurd this (by simp)
    have hcb : comp c b = false := by
      cases hcb : comp c b with
      | false => rfl
      | true =>
        have := h.trans a c b hac hcb
        rw [hab] at this
        exact absurd this (by simp)
    have := (h.incomp_trans a b c hab hba hbc hcb).1
    rw [hac] at this
    exact absurd this (by simp)

end StrictWeakOrder

/-- The default comparator on a linear order is a strict weak ordering. -/
theorem std.less_strictWeakOrder [LinearOrder T] :
    StrictWeakOrder (std.less : T → T → Bool) where
  irrefl a := by simp [std.less]
  trans a b c := by
    simp only [std.less, decide_eq_true_eq]
    exact fun h1 h2 => lt_trans h1 h2
  incomp_trans a b c := by
    simp only [std.less, decide_eq_false_iff_not, not_lt]
    intro h1 h2 h3 h4
    exact ⟨le_trans h3 h1, le_trans h2 h4⟩

/-- The comparator `std::greater` on a linear order is a strict weak ordering. -/
theorem std.greater_strictWeakOrder [LinearOrder T] :
    StrictWeakOrder (std.greater : T → T → Bool) where
  irrefl a := by simp [std.greater]
  trans a b c := by
    simp only [std.greater, decide_eq_true_eq]
    exact fun h1 h2 => lt_trans h2 h1
  incomp_trans a b c := by
    simp only [std.greater, decide_eq_false_iff_not, not_lt]
    intro h1 h2 h3 h4
    exact ⟨le_trans h1 h3, le_trans h4 h2⟩

namespace PriorityQueue

theorem parent_of_pos {i : Nat} (h : i ≠ 0) : parent i = (i - 1) / 2 := by
  simp [parent, h]

theorem set_getElem_same (l : List T) (i : Nat) (hi : i < l.length) : l.set i l[i] = l := by
  apply List.ext_getElem?
  intro k
  rw [List.getElem?_set]
  split_ifs with h1
  · subst h1
    exact (List.getElem?_eq_getElem hi).symm
  · rfl

theorem swap_perm_aux (l : List T) (i j : Nat) (hi : i < l.length) (hj : j < l.length) :
    ((l.set i l[j]).set j l[i]).Perm l := by
  classical
  rw [List.perm_iff_count]
  intro b
  by_cases hij : i = j
  · subst hij
    rw [List.set_set, set_getElem_same l i hi]
  · have hjl : j < (l.set i l[j]).length := by simpa using hj
    rw [List.count_set _ _ _ _ hjl, List.count_set _ _ _ _ hi]
    have hget : (l.set i l[j])[j] = l[j] := by
      rw [List.getElem_set]
      simp [hij]
    rw [hget]
    have h1 : (if (l[i] == b) = true then 1 else 0) ≤ List.count b l := by
      split
      · rename_i h
        have hb : b ∈ l := by
          have : l[i] = b := by simpa using h
          rw [← this]
          exact List.getElem_mem _
        exact List.count_pos_iff.mpr hb
      · exact Nat.zero_le _
    omega

/-- The call `std::swap(c[i], c[j])` with both indices in bounds: it succeeds, exchanges the
two positions and leaves every other position as it was. -/
theorem swap_spec (l : List T) (i j : Nat) (hi : i < l.length) (hj : j < l.length) :
    ∃ l1, swap l i j = some l1 ∧ l1.length = l.length ∧ l1.Perm l ∧
      l1[i]? = l[j]? ∧ l1[j]? = l[i]? ∧ ∀ k, k ≠ i → k ≠ j → l1[k]? = l[k]? := by
  refine ⟨(l.set i l[j]).set j l[i], ?_, by simp, swap_perm_aux l i j hi hj, ?_, ?_, ?_⟩
  · simp [swap, List.getElem?_eq_getElem hi, List.getElem?_eq_getElem hj]
  · by_cases hij : i = j
    · subst hij
      simp [List.getElem?_set, hi]
    · simp [List.getElem?_set, hi, hj, hij, Ne.symm hij]
  · simp [List.getElem?_set, hi, hj]
  · intro k hki hkj
    simp [List.getElem?_set, Ne.symm hki, Ne.symm hkj]

theorem heapOrder_iff (comp : T → T → Bool) (l : List T) :
    HeapOrder comp l ↔
      ∀ j a b, 1 ≤ j → l[(j - 1) / 2]? = some a → l[j]? = some b → comp a b = false := by
  simp only [HeapOrder, List.get?_eq_getElem?]

theorem upInv_after_swap {comp : T → T → Bool} (h : StrictWeakOrder comp) {l l1 : List T}
    {i : Nat} {x y : T} (h0 : i ≠ 0) (hx : l[i]? = some x) (hy : l[(i - 1) / 2]? = some y)
    (hc : comp y x = true) (hinv : UpInv comp l i)
    (hgi : l1[(i - 1) / 2]? = l[i]?) (hgj : l1[i]? = l[(i - 1) / 2]?)
    (hother : ∀ k, k ≠ (i - 1) / 2 → k ≠ i → l1[k]? = l[k]?) :
    UpInv comp l1 ((i - 1) / 2) := by
  constructor
  · intro j a b hj hjp ha hb
    by_cases hji : j = i
    · subst hji
      rw [hgi, hx] at ha
      rw [hgj, hy] at hb
      injection ha with ha
      injection hb with hb
      subst ha hb
      exact h.asymm hc
    · rw [hother j hjp hji] at hb
      by_cases hq : (j - 1) / 2 = (i - 1) / 2
      · rw [hq, hgi, hx] at ha
        injection ha with ha
        subst ha
        have h1 : comp y b = false := hinv.1 j y b hj hji (by rw [hq]; exact hy) hb
        cases hab : comp x b with
        | false => rfl
        | true =>
          have := h.trans y x b hc hab
          rw [h1] at this
          exact absurd this (by simp)
      · by_cases hq2 : (j - 1) / 2 = i
        · rw [hq2, hgj] at ha
          exact hinv.2 j a b (by omega) hj hq2 ha hb
        · rw [hother _ hq hq2] at ha
          exact hinv.1 j a b hj hji ha hb
  · intro j a b hp1 hj hjq ha hb
    rw [hother _ (by omega) (by omega)] at ha
    have hpp : comp a y = false := hinv.1 ((i - 1) / 2) a y hp1 (by omega) ha hy
    by_cases hji : j = i
    · subst hji
      rw [hgj, hy] at hb
      injection hb with hb
      subst hb
      exact hpp
    · rw [hother j (by omega) hji] at hb
      have h2 : comp y b = false := hinv.1 j y b hj hji (by rw [hjq]; exact hy) hb
      exact h.neg_trans hpp h2

/-- The loop of `upheap` started at an index in bounds with enough fuel: it terminates
without an out-of-bounds access and permutes the sequence; for a strict weak ordering it
restores heap order. -/
theorem upheapLoop_spec (comp : T → T → Bool) (fuel : Nat) :
    ∀ (l : List T) (i : Nat), i < fuel → i < l.length →
      ∃ l1, upheapLoop comp fuel l i = some l1 ∧ l1.Perm l ∧
        (StrictWeakOrder comp → UpInv comp l i → HeapOrder comp l1) := by
  induction fuel with
  | zero => intro l i hf; omega
  | succ fuel ih =>
    intro l i hf hi
    by_cases h0 : i = 0
    · subst h0
      refine ⟨l, by simp [upheapLoop], List.Perm.refl _, ?_⟩
      intro _ hinv
      rw [heapOrder_iff]
      intro j a b hj ha hb
      exact hinv.1 j a b hj (by omega) ha hb
    · have hp : parent i = (i - 1) / 2 := parent_of_pos h0
      have hpl : (i - 1) / 2 < l.length := by omega
      obtain ⟨x, hx⟩ : ∃ x, l[i]? = some x := ⟨l[i], List.getElem?_eq_getElem hi⟩
      obtain ⟨y, hy⟩ : ∃ y, l[(i - 1) / 2]? = some y := ⟨_, List.getElem?_eq_getElem hpl⟩
      cases hc : comp y x with
      | false =>
        refine ⟨l, ?_, List.Perm.refl _, ?_⟩
        · simp [upheapLoop, h0, hp, hx, hy, hc]
        · intro _ hinv
          rw [heapOrder_iff]
          intro j a b hj ha hb
          by_cases hji : j = i
          · subst hji
            rw [hy] at ha
            rw [hx] at hb
            injection ha with ha
            injection hb with hb
            subst ha hb
            exact hc
          · exact hinv.1 j a b hj hji ha hb
      | true =>
        obtain ⟨l1, hsw, hlen, hperm, hgi, hgj, hother⟩ := swap_spec l ((i - 1) / 2) i hpl hi
        obtain ⟨l2, h2, hperm2, himp⟩ := ih l1 ((i - 1) / 2) (by omega) (by omega)
        refine ⟨l2, ?_, hperm2.trans hperm, ?_⟩
        · simp [upheapLoop, h0, hp, hx, hy, hc, hsw, h2]
        · intro h hinv
          exact himp h (upInv_after_swap h h0 hx hy hc hinv hgi hgj hother)

theorem upInv_append {comp : T → T → Bool} {l : List T} (v : T) (hh : HeapOrder comp l) :
    UpInv comp (l ++ [v]) l.length := by
  rw [heapOrder_iff] at hh
  constructor
  · intro j a b hj hjl ha hb
    have hjlt : j < l.length := by
      have := (List.getElem?_eq_some.mp hb).1
      simp at this
      omega
    rw [List.getElem?_append_left (by omega)] at ha
    rw [List.getElem?_append_left hjlt] at hb
    exact hh j a b hj ha hb
  · intro j a b _ hj hjq _ hb
    have := (List.getElem?_eq_some.mp hb).1
    simp at this
    omega

/-- The member `push`: it succeeds and the new sequence is a permutation of the old one
followed by the pushed value; for a strict weak ordering it keeps heap order. -/
theorem push_spec (comp : T → T → Bool) (q : PriorityQueue T) (v : T) :
    ∃ q1, q.push comp v = some q1 ∧ q1.c.Perm (q.c ++ [v]) ∧
      (StrictWeakOrder comp → HeapOrder comp q.c → HeapOrder comp q1.c) := by
  obtain ⟨l1, h1, h2, h3⟩ := upheapLoop_spec comp (q.c.length + 1) (q.c ++ [v]) q.c.length
    (by omega) (by simp)
  refine ⟨⟨l1⟩, ?_, h2, fun h hh => h3 h (upInv_append v hh)⟩
  simp [push, upheap, h1]

/-- The choice of the child `curr` in `downheap` at an internal position, and what is left
of the call after it. -/
theorem downheapRec_choice (comp : T → T → Bool) (fuel : Nat) (l : List T) (i : Nat) (x : T)
    (hx : l[i]? = some x) (hnl : 2 * i + 1 < l.length) :
    ∃ curr y, l[curr]? = some y ∧ 1 ≤ curr ∧ (curr - 1) / 2 = i ∧
      (StrictWeakOrder comp →
        ∀ j b, 1 ≤ j → (j - 1) / 2 = i → j ≠ curr → l[j]? = some b → comp y b = false) ∧
      downheapRec comp (fuel + 1) l i =
        (if comp x y = true then swap l i curr else some l).bind
          (fun c1 => downheapRec comp fuel c1 curr) := by
  obtain ⟨yl, hyl⟩ : ∃ y, l[2 * i + 1]? = some y := ⟨_, List.getElem?_eq_getElem hnl⟩
  have hleaf : ¬ l.length ≤ 2 * i + 1 := by omega
  by_cases hr : 2 * (i + 1) < l.length
  · obtain ⟨yr, hyr⟩ : ∃ y, l[2 * (i + 1)]? = some y := ⟨_, List.getElem?_eq_getElem hr⟩
    cases hlr : comp yl yr with
    | true =>
      refine ⟨2 * (i + 1), yr, hyr, by omega, by omega, ?_, ?_⟩
      · intro h j b hj hq hjc hb
        have hj2 : j = 2 * i + 1 := by omega
        subst hj2
        rw [hyl] at hb
        injection hb with hb
        subst hb
        exact h.asymm hlr
      · cases hxy : comp x yr <;>
          simp [downheapRec, is_leaf, left_child, right_child, hleaf, hr, hyl, hyr, hlr, hx,
            hxy]
    | false =>
      refine ⟨2 * i + 1, yl, hyl, by omega, by omega, ?_, ?_⟩
      · intro h j b hj hq hjc hb
        have hj2 : j = 2 * (i + 1) := by omega
        subst hj2
        rw [hyr] at hb
        injection hb with hb
        subst hb
        exact hlr
      · cases hxy : comp x yl <;>
          simp [downheapRec, is_leaf, left_child, right_child, hleaf, hr, hyl, hyr, hlr, hx,
            hxy]
  · refine ⟨2 * i + 1, yl, hyl, by omega, by omega, ?_, ?_⟩
    · intro h j b hj hq hjc hb
      have := (List.getElem?_eq_some.mp hb).1
      omega
    · cases hxy : comp x yl <;>
        simp [downheapRec, is_leaf, left_child, right_child, hleaf, hr, hyl, hx, hxy]

/-- The swap step of `downheap`: it succeeds and permutes the sequence, and it moves the
exception to heap order from the children of `i` to the children of `curr`. -/
theorem downInv_next (comp : T → T → Bool) {l : List T} {i curr : Nat} {x y : T}
    (hx : l[i]? = some x) (hy : l[curr]? = some y) (hc1 : 1 ≤ curr)
    (hcurr : (curr - 1) / 2 = i) :
    ∃ l1, (if comp x y = true then swap l i curr else some l) = some l1 ∧ l1.Perm l ∧
      (StrictWeakOrder comp →
        (∀ j b, 1 ≤ j → (j - 1) / 2 = i → j ≠ curr → l[j]? = some b → comp y b = false) →
        DownInv comp l i → DownInv comp l1 curr) := by
  have hil : i < l.length := (List.getElem?_eq_some.mp hx).1
  have hcl : curr < l.length := (List.getElem?_eq_some.mp hy).1
  cases hc : comp x y with
  | false =>
    refine ⟨l, by simp, List.Perm.refl _, ?_⟩
    intro h hoth hinv
    constructor
    · intro j a b hj hq ha hb
      by_cases hqi : (j - 1) / 2 = i
      · rw [hqi, hx] at ha
        injection ha with ha
        subst ha
        by_cases hjc : j = curr
        · subst hjc
          rw [hy] at hb
          injection hb with hb
          subst hb
          exact hc
        · exact h.neg_trans hc (hoth j b hj hqi hjc hb)
      · exact hinv.1 j a b hj hqi ha hb
    · intro j a b _ hj hjq ha hb
      rw [hcurr, hx] at ha
      injection ha with ha
      subst ha
      have h2 : comp y b = false :=
        hinv.1 j y b hj (by omega) (by rw [hjq]; exact hy) hb
      exact h.neg_trans hc h2
  | true =>
    obtain ⟨l1, hsw, _, hperm, hgi, hgc, hother⟩ := swap_spec l i curr hil hcl
    refine ⟨l1, by simpa using hsw, hperm, ?_⟩
    intro h hoth hinv
    constructor
    · intro j a b hj hq ha hb
      by_cases hjc : j = curr
      · subst hjc
        rw [hcurr, hgi, hy] at ha
        rw [hgc, hx] at hb
        injection ha with ha
        injection hb with hb
        subst ha hb
        exact h.asymm hc
      · by_cases hji : j = i
        · subst hji
          rw [hgi, hy] at hb
          injection hb with hb
          subst hb
          rw [hother _ (by omega) (by omega)] at ha
          exact hinv.2 curr a y (by omega) hc1 hcurr ha hy
        · rw [hother j hji hjc] at hb
          by_cases hqi : (j - 1) / 2 = i
          · rw [hqi, hgi, hy] at ha
            injection ha with ha
            subst ha
            exact hoth j b hj hqi hjc hb
          · rw [hother _ hqi hq] at ha
            exact hinv.1 j a b hj hqi ha hb
    · intro j a b _ hj hjq ha hb
      rw [hcurr, hgi, hy] at ha
      injection ha with ha
      subst ha
      rw [hother j (by omega) (by omega)] at hb
      exact hinv.1 j y b hj (by omega) (by rw [hjq]; exact hy) hb

/-- The recursion of `downheap` with enough fuel: it terminates without an out-of-bounds
access and permutes the sequence; for a strict weak ordering it restores heap order. -/
theorem downheapRec_spec (comp : T → T → Bool) (fuel : Nat) :
    ∀ (l : List T) (i : Nat), l.length < fuel + i → i ≤ l.length →
      ∃ l1, downheapRec comp fuel l i = some l1 ∧ l1.Perm l ∧
        (StrictWeakOrder comp → DownInv comp l i → HeapOrder comp l1) := by
  induction fuel with
  | zero => intro l i hf hi; omega
  | succ fuel ih =>
    intro l i hf _
    by_cases hleaf : l.length ≤ 2 * i + 1
    · refine ⟨l, ?_, List.Perm.refl _, ?_⟩
      · simp [downheapRec, is_leaf, left_child, hleaf]
      · intro _ hinv
        rw [heapOrder_iff]
        intro j a b hj ha hb
        by_cases hq : (j - 1) / 2 = i
        · have := (List.getElem?_eq_some.mp hb).1
          omega
        · exact hinv.1 j a b hj hq ha hb
    · have hil : i < l.length := by omega
      obtain ⟨x, hx⟩ : ∃ x, l[i]? = some x := ⟨l[i], List.getElem?_eq_getElem hil⟩
      obtain ⟨curr, y, hy, hc1, hcurr, hoth, heq⟩ :=
        downheapRec_choice comp fuel l i x hx (by omega)
      obtain ⟨l1, hl1, hperm, hnext⟩ := downInv_next comp hx hy hc1 hcurr
      have hcl : curr < l.length := (List.getElem?_eq_some.mp hy).1
      obtain ⟨l2, hl2, hperm2, himp⟩ := ih l1 curr (by rw [hperm.length_eq]; omega)
        (by rw [hperm.length_eq]; omega)
      refine ⟨l2, ?_, hperm2.trans hperm, ?_⟩
      · rw [heq, hl1]
        exact hl2
      · intro h hinv
        exact himp h (hnext h (hoth h) hinv)

theorem heapOrder_nil (comp : T → T → Bool) : HeapOrder comp ([] : List T) := by
  rw [heapOrder_iff]
  intro j a b _ _ hb
  simp at hb

theorem downInv_after_front {comp : T → T → Bool} {t back : T} {ys : List T}
    (hh : HeapOrder comp (t :: (ys ++ [back]))) : DownInv comp (back :: ys) 0 := by
  rw [heapOrder_iff] at hh
  constructor
  · intro j a b hj hq ha hb
    have hjl : j < (back :: ys).length := (List.getElem?_eq_some.mp hb).1
    have hql : (j - 1) / 2 < (back :: ys).length := (List.getElem?_eq_some.mp ha).1
    simp only [List.length_cons] at hjl hql
    obtain ⟨j1, rfl⟩ : ∃ j1, j = j1 + 1 := ⟨j - 1, by omega⟩
    obtain ⟨q1, hq1⟩ : ∃ q1, (j1 + 1 - 1) / 2 = q1 + 1 := ⟨(j1 + 1 - 1) / 2 - 1, by omega⟩
    rw [hq1] at ha
    simp only [List.getElem?_cons_succ] at ha hb
    refine hh (j1 + 1) a b hj ?_ ?_
    · rw [hq1, List.getElem?_cons_succ, List.getElem?_append_left (by omega)]
      exact ha
    · rw [List.getElem?_cons_succ, List.getElem?_append_left (by omega)]
      exact hb
  · intro j a b h0
    omega

/-- The member `pop` on a non-empty queue: it succeeds, and the sequence before is a
permutation of the old top followed by the sequence after; for a strict weak ordering it
keeps heap order. -/
theorem pop_spec (comp : T → T → Bool) (q : PriorityQueue T) (hne : q.c ≠ []) :
    ∃ t q1, q.top = some t ∧ q.pop comp = some q1 ∧ (t :: q1.c).Perm q.c ∧
      (StrictWeakOrder comp → HeapOrder comp q.c → HeapOrder comp q1.c) := by
  obtain ⟨c⟩ := q
  simp only at hne ⊢
  obtain ⟨ys, hys⟩ := List.getLast?_eq_some_iff.mp (List.getLast?_eq_getLast c hne)
  generalize c.getLast hne = back at hys
  subst hys
  cases ys with
  | nil =>
    refine ⟨back, ⟨[]⟩, by simp [top], ?_, by simp, ?_⟩
    · simp [pop, downheap, downheapRec, is_leaf, left_child]
    · intro _ _
      exact heapOrder_nil comp
  | cons t ys =>
    obtain ⟨l3, h3, hperm, himp⟩ :=
      downheapRec_spec comp ((back :: ys).length + 1) (back :: ys) 0 (by omega) (by omega)
    refine ⟨t, ⟨l3⟩, by simp [top], ?_, ?_, ?_⟩
    · have hd : (back :: (ys ++ [back])).dropLast = back :: ys := by
        rw [← List.cons_append, List.dropLast_concat]
      have hgl : (t :: (ys ++ [back])).getLast? = some back := by
        rw [← List.cons_append, List.getLast?_append]
        simp
      simp only [List.length_cons] at h3
      simp [pop, downheap, hgl, hd, h3]
    · simp only
      refine (List.Perm.cons t hperm).trans ?_
      refine List.Perm.cons t ?_
      exact (List.perm_append_singleton back ys).symm
    · intro h hh
      exact himp h (downInv_after_front hh)

/-- In a sequence in heap order no element ranks above the element at position `0`. -/
theorem top_max {comp : T → T → Bool} (h : StrictWeakOrder comp) {l : List T}
    (hh : HeapOrder comp l) {t : T} (ht : l[0]? = some t) :
    ∀ (i : Nat) (x : T), l[i]? = some x → comp t x = false := by
  rw [heapOrder_iff] at hh
  intro i
  induction i using Nat.strong_induction_on with
  | _ i ih =>
    intro x hx
    by_cases h0 : i = 0
    · subst h0
      rw [ht] at hx
      injection hx with hx
      subst hx
      exact h.irrefl t
    · have hil : i < l.length := (List.getElem?_eq_some.mp hx).1
      have hpl : (i - 1) / 2 < l.length := by omega
      obtain ⟨y, hy⟩ : ∃ y, l[(i - 1) / 2]? = some y := ⟨_, List.getElem?_eq_getElem hpl⟩
      exact h.neg_trans (ih _ (by omega) y hy) (hh i y x (by omega) hy hx)

theorem top_max_mem {comp : T → T → Bool} (h : StrictWeakOrder comp) {q : PriorityQueue T}
    (hh : HeapOrder comp q.c) {t : T} (ht : q.top = some t) :
    ∀ x ∈ q.c, comp t x = false := by
  intro x hx
  obtain ⟨i, hi, rfl⟩ := List.getElem_of_mem hx
  exact top_max h hh (by simpa [top] using ht) i _ (List.getElem?_eq_getElem hi)

/-- A sequence of operations whose `pop` calls are applied to non-empty queues runs to the
end; for a strict weak ordering it keeps heap order. -/
theorem run_spec (comp : T → T → Bool) (ops : List (Op T)) :
    ∀ q : PriorityQueue T, popsGuarded q.c.length ops = true →
      ∃ q1, run comp q ops = some q1 ∧
        (StrictWeakOrder comp → HeapOrder comp q.c → HeapOrder comp q1.c) := by
  induction ops with
  | nil => intro q _; exact ⟨q, rfl, fun _ hh => hh⟩
  | cons op ops ih =>
    intro q hg
    cases op with
    | push v =>
      obtain ⟨q1, h1, hperm, himp⟩ := push_spec comp q v
      have hlen : q1.c.length = q.c.length + 1 := by simpa using hperm.length_eq
      simp only [popsGuarded] at hg
      rw [← hlen] at hg
      obtain ⟨q2, h2, himp2⟩ := ih q1 hg
      refine ⟨q2, ?_, fun h hh => himp2 h (himp h hh)⟩
      simp [run, step, h1, h2]
    | pop =>
      have hne : q.c ≠ [] := by
        intro h0
        rw [h0] at hg
        simp [popsGuarded] at hg
      obtain ⟨t, q1, _, h1, hperm, himp⟩ := pop_spec comp q hne
      have hlen : q.c.length = q1.c.length + 1 := by simpa using hperm.length_eq.symm
      rw [hlen] at hg
      simp only [popsGuarded] at hg
      obtain ⟨q2, h2, himp2⟩ := ih q1 hg
      refine ⟨q2, ?_, fun h hh => himp2 h (himp h hh)⟩
      simp [run, step, h1, h2]

/-- Pushing a list of elements one by one succeeds and gives a permutation of the old
sequence followed by the list; for a strict weak ordering it keeps heap order. -/
theorem pushAll_spec (comp : T → T → Bool) (xs : List T) :
    ∀ q : PriorityQueue T, ∃ q1, pushAll comp q xs = some q1 ∧ q1.c.Perm (q.c ++ xs) ∧
      (StrictWeakOrder comp → HeapOrder comp q.c → HeapOrder comp q1.c) := by
  induction xs with
  | nil => intro q; exact ⟨q, rfl, by simp, fun _ hh => hh⟩
  | cons x xs ih =>
    intro q
    obtain ⟨q1, h1, hperm, himp⟩ := push_spec comp q x
    obtain ⟨q2, h2, hperm2, himp2⟩ := ih q1
    refine ⟨q2, ?_, ?_, fun h hh => himp2 h (himp h hh)⟩
    · simp only [pushAll] at h2
      simp [pushAll, run, step, h1, h2]
    · refine hperm2.trans ?_
      have := List.Perm.append_right xs hperm
      simpa using this

/-- The loop that reads `top()` and calls `pop()` until the queue is empty, on a queue in
heap order and with enough fuel: it terminates and yields a permutation of the sequence in
which no element ranks below a later one. -/
theorem drainLoop_spec {comp : T → T → Bool} (h : StrictWeakOrder comp) (fuel : Nat) :
    ∀ q : PriorityQueue T, q.c.length < fuel → HeapOrder comp q.c →
      ∃ out, drainLoop comp fuel q = some out ∧ out.Perm q.c ∧
        out.Pairwise (fun a b => comp a b = false) := by
  induction fuel with
  | zero => intro q hf; omega
  | succ fuel ih =>
    intro q hf hh
    by_cases hne : q.c = []
    · refine ⟨[], ?_, by simp [hne], List.Pairwise.nil⟩
      simp [drainLoop, empty, hne]
    · obtain ⟨t, q1, ht, h1, hperm, himp⟩ := pop_spec comp q hne
      have hlen : q.c.length = q1.c.length + 1 := by simpa using hperm.length_eq.symm
      obtain ⟨rest, h2, hperm2, hpw⟩ := ih q1 (by omega) (himp h hh)
      refine ⟨t :: rest, ?_, (List.Perm.cons t hperm2).trans hperm, ?_⟩
      · have he : q.empty = false := by
          simp [empty, hne]
        simp [drainLoop, he, ht, h1, h2]
      · refine List.Pairwise.cons ?_ hpw
        intro x hx
        have hxq : x ∈ q.c := hperm.subset (List.mem_cons_of_mem t (hperm2.subset hx))
        exact top_max_mem h hh ht x hxq

end PriorityQueue

end PriorityQueueLemmas

section PriorityQueueClaims

variable {T : Type}

namespace PriorityQueue

/-- C2. For a strict weak ordering `comp`, every sequence of `push` and `pop` calls on an
initially empty queue, with `pop` applied only to a non-empty queue, runs to the end and
leaves the sequence `c` in heap order: `comp(c[(i-1)/2], c[i])` is false at every position
`i >= 1`. -/
theorem heap_order_after_operations (comp : T → T → Bool) (h : StrictWeakOrder comp)
    (ops : List (Op T)) (hg : popsGuarded 0 ops = true) :
    ∃ q, run comp init ops = some q ∧ HeapOrder comp q.c := by
  obtain ⟨q, hq, himp⟩ := run_spec comp ops init hg
  exact ⟨q, hq, himp h (heapOrder_nil comp)⟩

/-- C6. On a non-empty queue `pop()` succeeds and removes exactly the top element: the
sequence before is a permutation of `top()` followed by the sequence after, and `size()`
goes down by exactly one; pushing one element onto an empty queue and popping it leaves an
empty queue with `size() == 0`.  (Neither heap order nor the strict weak ordering is needed
for this.) -/
theorem pop_removes_top (comp : T → T → Bool) (q : PriorityQueue T) (hne : q.c ≠ []) :
    (∃ t q1, q.top = some t ∧ q.pop comp = some q1 ∧ (t :: q1.c).Perm q.c ∧
        q1.size + 1 = q.size) ∧
      ∀ v : T, ∃ q1 q2, (init : PriorityQueue T).push comp v = some q1 ∧
        q1.pop comp = some q2 ∧ q2.c = [] ∧ q2.size = 0 ∧ q2.empty = true := by
  constructor
  · obtain ⟨t, q1, ht, h1, hperm, _⟩ := pop_spec comp q hne
    refine ⟨t, q1, ht, h1, hperm, ?_⟩
    simpa [size] using hperm.length_eq
  · intro v
    obtain ⟨q1, h1, hperm, _⟩ := push_spec comp (init : PriorityQueue T) v
    have hlen1 : q1.c.length = 1 := by simpa [init] using hperm.length_eq
    have hne1 : q1.c ≠ [] := by
      intro h0
      rw [h0] at hlen1
      simp at hlen1
    obtain ⟨t, q2, _, h2, hperm2, _⟩ := pop_spec comp q1 hne1
    have hlen2 : q2.c.length = 0 := by
      have := hperm2.length_eq
      simp only [List.length_cons] at this
      omega
    refine ⟨q1, q2, h1, h2, List.length_eq_zero.mp hlen2, hlen2, ?_⟩
    simp [empty, hlen2]

/-- C7. For a strict weak ordering `comp` and a queue built from the empty queue by `push`
and `pop` calls (`pop` applied only to a non-empty queue), if the queue is not empty then
`top()` returns one of its elements and no stored element ranks above it:
`comp(top(), x)` is false for every stored `x`.  The member `top` only reads `c[0]`; it
returns no new queue state. -/
theorem top_ranks_highest (comp : T → T → Bool) (h : StrictWeakOrder comp)
    (ops : List (Op T)) (hg : popsGuarded 0 ops = true) :
    ∃ q, run comp init ops = some q ∧
      (q.c ≠ [] → ∃ t, q.top = some t ∧ t ∈ q.c ∧ ∀ x ∈ q.c, comp t x = false) := by
  obtain ⟨q, hq, himp⟩ := run_spec comp ops init hg
  refine ⟨q, hq, ?_⟩
  intro hne
  have hh := himp h (heapOrder_nil comp)
  obtain ⟨t, _, ht, _, hperm, _⟩ := pop_spec comp q hne
  exact ⟨t, ht, hperm.subset (List.mem_cons_self _ _), top_max_mem h hh ht⟩

/-- C8. Pushing the elements of a list one by one into an empty queue with the default
comparator and then reading `top()` and calling `pop()` until the queue is empty succeeds
and yields a permutation of the input in non-increasing order. -/
theorem push_all_then_drain_sorted [LinearOrder T] (xs : List T) :
    ∃ q out, pushAll std.less init xs = some q ∧ drain std.less q = some out ∧
      out.Perm xs ∧ out.Sorted (· ≥ ·) := by
  obtain ⟨q, hq, hperm, himp⟩ := pushAll_spec (std.less : T → T → Bool) xs init
  have hh := himp std.less_strictWeakOrder (heapOrder_nil _)
  obtain ⟨out, ho, hperm2, hpw⟩ :=
    drainLoop_spec std.less_strictWeakOrder (q.c.length + 1) q (by omega) hh
  refine ⟨q, out, hq, ho, ?_, ?_⟩
  · refine hperm2.trans ?_
    simpa [init] using hperm
  · refine hpw.imp ?_
    intro a b hab
    simp only [std.less, decide_eq_false_iff_not, not_lt] at hab
    exact hab

end PriorityQueue

end PriorityQueueClaims

/-! ## Scenarios -/

namespace BinarySearchTree

theorem scenarioA_built :
    (init : BinarySearchTree Nat Nat).run
      [Op.insert (5, 50), Op.insert (3, 30), Op.insert (8, 80), Op.insert (1, 10),
        Op.insert (4, 40)] = scenarioA := by
  decide

theorem scenarioA_BSTOrder : node_ptr.BSTOrder scenarioA._root := by
  simp [scenarioA, node_ptr.BSTOrder, node_ptr.inorder]

/-- Scenario B: erasing the key 5 from the tree of Scenario A leaves the in-order traversal
1, 3, 4, 8 and four nodes; erasing the absent key 7 changes nothing. -/
theorem erase_inorder_size_witness :
    node_ptr.BSTOrder scenarioA._root ∧
      (scenarioA.erase 5)._root.inorder = [(1, 10), (3, 30), (4, 40), (8, 80)] ∧
      (scenarioA.erase 5).size = 4 ∧
      scenarioA.erase 7 = scenarioA :=
  ⟨scenarioA_BSTOrder,
    ((erase_inorder_size scenarioA 5 scenarioA_BSTOrder).1).trans (by decide),
    ((erase_inorder_size scenarioA 5 scenarioA_BSTOrder).2.1 (by decide)).1.trans
      (by decide),
    (erase_inorder_size scenarioA 7 scenarioA_BSTOrder).2.2 (by decide)⟩

/-- Scenario B at the level of nodes: the root of the tree of Scenario A has two children;
after `erase(5)` it holds the successor `(8, 80)`, its left subtree is unchanged and its
right subtree has lost the node of 8. -/
theorem erase_two_children_successor_witness :
    node_ptr.BSTOrder scenarioA._root ∧
      ∃ m mr, node_ptr.min (node_ptr.node (8, 80) node_ptr.nullptr node_ptr.nullptr) =
          node_ptr.node m node_ptr.nullptr mr ∧
        (scenarioA.erase 5)._root =
          node_ptr.node m
            (node_ptr.node (3, 30)
              (node_ptr.node (1, 10) node_ptr.nullptr node_ptr.nullptr)
              (node_ptr.node (4, 40) node_ptr.nullptr node_ptr.nullptr))
            node_ptr.nullptr ∧
        (scenarioA.erase 5)._size = 4 := by
  refine ⟨scenarioA_BSTOrder, ?_⟩
  obtain ⟨m, mr, h1, _, h3, _, _, h6⟩ :=
    erase_two_children_successor scenarioA []
      (5, 50)
      (node_ptr.node (3, 30)
        (node_ptr.node (1, 10) node_ptr.nullptr node_ptr.nullptr)
        (node_ptr.node (4, 40) node_ptr.nullptr node_ptr.nullptr))
      (node_ptr.node (8, 80) node_ptr.nullptr node_ptr.nullptr)
      scenarioA_BSTOrder rfl (by simp) (by simp)
  exact ⟨m, mr, h1, h3, h6⟩

/-- Scenario A: inserting the keys 5, 3, 8, 1, 4 yields the in-order key sequence
1, 3, 4, 5, 8. -/
theorem inorder_after_inserts_witness :
    ((init : BinarySearchTree Nat Nat).run
        ([(5, 50), (3, 30), (8, 80), (1, 10), (4, 40)].map Op.insert))._root.inorder.map
          Prod.fst = [1, 3, 4, 5, 8] ∧
      (((init : BinarySearchTree Nat Nat).run
        ([(5, 50), (3, 30), (8, 80), (1, 10), (4, 40)].map Op.insert))._root.inorder.map
          Prod.fst).Sorted (· < ·) :=
  ⟨by decide, (inorder_after_inserts [(5, 50), (3, 30), (8, 80), (1, 10), (4, 40)]).1⟩

/-- A run with a repeated key, an erase of an absent key and a `clear`: after the `clear`
one insert created a node and no erase removed one, and `size()` is 1. -/
theorem size_counts_nodes_witness :
    ((init : BinarySearchTree Nat Nat).run
        [Op.insert (5, 50), Op.insert (3, 30), Op.insert (5, 51), Op.erase 3, Op.erase 7,
          Op.clear, Op.insert (1, 10)]).size = 1 ∧
      tally (init : BinarySearchTree Nat Nat)
        [Op.insert (5, 50), Op.insert (3, 30), Op.insert (5, 51), Op.erase 3, Op.erase 7,
          Op.clear, Op.insert (1, 10)] (0, 0) = (1, 0) ∧
      tally (init : BinarySearchTree Nat Nat)
        [Op.insert (5, 50), Op.insert (3, 30), Op.insert (5, 51), Op.erase 3, Op.erase 7]
        (0, 0) = (2, 1) ∧
      ((init : BinarySearchTree Nat Nat).run
        [Op.insert (5, 50), Op.insert (3, 30), Op.insert (5, 51), Op.erase 3,
          Op.erase 7]).size = 1 :=
  ⟨by decide, by decide, by decide,
    ((size_counts_nodes [Op.insert (5, 50), Op.insert (3, 30), Op.insert (5, 51),
      Op.erase 3, Op.erase 7]).1).trans (by decide)⟩

end BinarySearchTree

namespace PriorityQueue

/-- A run with two `pop` calls under the default comparator. -/
theorem heap_order_after_operations_witness :
    popsGuarded 0 [Op.push 5, Op.push 3, Op.push 8, Op.pop, Op.push 1, Op.push 9, Op.pop]
        = true ∧
      ∃ q, run std.less (init : PriorityQueue Nat)
          [Op.push 5, Op.push 3, Op.push 8, Op.pop, Op.push 1, Op.push 9, Op.pop] = some q ∧
        HeapOrder std.less q.c :=
  ⟨by decide,
    heap_order_after_operations std.less std.less_strictWeakOrder
      [Op.push 5, Op.push 3, Op.push 8, Op.pop, Op.push 1, Op.push 9, Op.pop] (by decide)⟩

/-- A `pop` on the queue of Scenario C: the top 9 is removed and four elements remain. -/
theorem pop_removes_top_witness :
    (⟨[9, 8, 5, 1, 3]⟩ : PriorityQueue Nat).c ≠ [] ∧
      (∃ t q1, (⟨[9, 8, 5, 1, 3]⟩ : PriorityQueue Nat).top = some t ∧
        (⟨[9, 8, 5, 1, 3]⟩ : PriorityQueue Nat).pop std.less = some q1 ∧
        (t :: q1.c).Perm [9, 8, 5, 1, 3] ∧ q1.size + 1 = 5) ∧
      (⟨[9, 8, 5, 1, 3]⟩ : PriorityQueue Nat).pop std.less = some ⟨[8, 3, 5, 1]⟩ :=
  ⟨by decide, (pop_removes_top std.less ⟨[9, 8, 5, 1, 3]⟩ (by decide)).1, by decide⟩

/-- An inverted comparator gives a min-heap: after pushing 5, 3, 8, 1, 9 under
`std::greater` the top is 1. -/
theorem top_ranks_highest_witness :
    popsGuarded 0 ([5, 3, 8, 1, 9].map Op.push) = true ∧
      (∃ q, run std.greater (init : PriorityQueue Nat) ([5, 3, 8, 1, 9].map Op.push)
          = some q ∧
        (q.c ≠ [] → ∃ t, q.top = some t ∧ t ∈ q.c ∧ ∀ x ∈ q.c, std.greater t x = false)) ∧
      (run std.greater (init : PriorityQueue Nat) ([5, 3, 8, 1, 9].map Op.push)).bind top
        = some 1 :=
  ⟨by decide,
    top_ranks_highest std.greater std.greater_strictWeakOrder ([5, 3, 8, 1, 9].map Op.push)
      (by decide),
    by decide⟩

/-- Scenario C: pushing 5, 3, 8, 1, 9 and popping until empty yields 9, 8, 5, 3, 1. -/
theorem push_all_then_drain_sorted_witness :
    (pushAll std.less (init : PriorityQueue Nat) [5, 3, 8, 1, 9]).bind (drain std.less)
        = some [9, 8, 5, 3, 1] ∧
      ∃ q out, pushAll std.less (init : PriorityQueue Nat) [5, 3, 8, 1, 9] = some q ∧
        drain std.less q = some out ∧ out.Perm [5, 3, 8, 1, 9] ∧ out.Sorted (· ≥ ·) :=
  ⟨by decide, push_all_then_drain_sorted [5, 3, 8, 1, 9]⟩

end PriorityQueue

/-! ## Further theorems on BinarySearchTree -/

section BinarySearchTreeMore

variable {K : Type u} {V : Type v}

namespace node_ptr

theorem clone_eq (t : node_ptr K V) : clone t = t := by
  induction t with
  | nullptr => rfl
  | node e l r ihl ihr => rw [clone, ihl, ihr]

theorem max_eq_nullptr_iff (t : node_ptr K V) : max t = nullptr ↔ t = nullptr := by
  induction t with
  | nullptr => simp [max]
  | node e l r _ ihr =>
    cases r with
    | nullptr => simp [max]
    | node er rl rr => simpa [max] using ihr

/-- The node returned by `max` has no right child and is the last entry of the in-order
traversal. -/
theorem inorder_of_max {t : node_ptr K V} {m : K × V} {ml mr : node_ptr K V}
    (h : max t = node m ml mr) : mr = nullptr ∧ ∃ pre, inorder t = pre ++ [m] := by
  induction t with
  | nullptr => simp [max] at h
  | node e l r _ ihr =>
    cases r with
    | nullptr =>
      simp only [max, node.injEq] at h
      obtain ⟨rfl, rfl, rfl⟩ := h
      exact ⟨rfl, inorder l, by simp [inorder]⟩
    | node er rl rr =>
      simp only [max] at h
      obtain ⟨h1, pre, h2⟩ := ihr h
      refine ⟨h1, inorder l ++ e :: pre, ?_⟩
      rw [inorder, h2]
      simp

/-- The node returned by `min` is reached from the root by `left` links only. -/
theorem min_is_leftmost (t : node_ptr K V) :
    ∃ n, subtreeAt (List.replicate n Dir.left) t = min t := by
  induction t with
  | nullptr => exact ⟨0, rfl⟩
  | node e l r ihl _ =>
    cases l with
    | nullptr => exact ⟨0, rfl⟩
    | node el ll lr =>
      obtain ⟨n, hn⟩ := ihl
      exact ⟨n + 1, by simpa [List.replicate_succ, subtreeAt, min] using hn⟩

/-- The node returned by `max` is reached from the root by `right` links only. -/
theorem max_is_rightmost (t : node_ptr K V) :
    ∃ n, subtreeAt (List.replicate n Dir.right) t = max t := by
  induction t with
  | nullptr => exact ⟨0, rfl⟩
  | node e l r _ ihr =>
    cases r with
    | nullptr => exact ⟨0, rfl⟩
    | node er rl rr =>
      obtain ⟨n, hn⟩ := ihr
      exact ⟨n + 1, by simpa [List.replicate_succ, subtreeAt, max] using hn⟩

variable [LinearOrder K]

/-- Inserting a key that `contains` finds creates no node: counter, node count and shape
stay as they are. -/
theorem insert_of_contains (k : K) (v : V) (t : node_ptr K V) (s : Nat)
    (h : contains std.less k t = true) :
    (insert std.less (k, v) t s).2 = s ∧
      numNodes (insert std.less (k, v) t s).1 = numNodes t ∧
      shape (insert std.less (k, v) t s).1 = shape t := by
  induction t with
  | nullptr => simp [contains] at h
  | node e l r ihl ihr =>
    rcases lt_trichotomy k e.1 with h1 | h1 | h1
    · have hc : contains std.less k (node e l r) = contains std.less k l := by
        simp [contains, std.less, h1]
      rw [hc] at h
      obtain ⟨i1, i2, i3⟩ := ihl h
      simp [insert, std.less, h1, numNodes, shape, i1, i2, i3]
    · simp [insert, std.less, h1, numNodes, shape]
    · have hn : ¬ k < e.1 := not_lt.mpr (le_of_lt h1)
      have hc : contains std.less k (node e l r) = contains std.less k r := by
        simp [contains, std.less, h1, hn]
      rw [hc] at h
      obtain ⟨i1, i2, i3⟩ := ihr h
      simp [insert, std.less, h1, hn, numNodes, shape, i1, i2, i3]

/-- Inserting a key that `contains` finds in a tree in BST order only overwrites the value
stored with that key. -/
theorem inorder_insert_of_contains (k : K) (v : V) (t : node_ptr K V) (s : Nat)
    (hb : BSTOrder t) (h : contains std.less k t = true) :
    inorder (insert std.less (k, v) t s).1 =
      (inorder t).map (fun e => if e.1 = k then (e.1, v) else e) := by
  induction t with
  | nullptr => simp [contains] at h
  | node e l r ihl ihr =>
    obtain ⟨hl, hr, hbl, hbr⟩ := hb
    have idl : ∀ k0 : K, (∀ y ∈ inorder l, y.1 ≠ k0) →
        (inorder l).map (fun e => if e.1 = k0 then (e.1, v) else e) = inorder l := by
      intro k0 hk
      conv_rhs => rw [← List.map_id (inorder l)]
      exact List.map_congr_left (fun y hy => by simp [hk y hy])
    have idr : ∀ k0 : K, (∀ y ∈ inorder r, y.1 ≠ k0) →
        (inorder r).map (fun e => if e.1 = k0 then (e.1, v) else e) = inorder r := by
      intro k0 hk
      conv_rhs => rw [← List.map_id (inorder r)]
      exact List.map_congr_left (fun y hy => by simp [hk y hy])
    rcases lt_trichotomy k e.1 with h1 | h1 | h1
    · have hc : contains std.less k (node e l r) = contains std.less k l := by
        simp [contains, std.less, h1]
      rw [hc] at h
      have he : e.1 ≠ k := ne_of_gt h1
      simp only [insert, std.less, h1, decide_True, if_true, inorder, List.map_append,
        List.map_cons, ihl hbl h, he, if_false]
      rw [idr k (fun y hy => ne_of_gt (lt_trans h1 (hr y hy)))]
    · subst h1
      simp only [insert, std.less, lt_irrefl, decide_False, Bool.false_eq_true, if_false,
        inorder, List.map_append, List.map_cons, if_true]
      rw [idl e.1 (fun y hy => ne_of_lt (hl y hy)), idr e.1 (fun y hy => ne_of_gt (hr y hy))]
    · have hn : ¬ k < e.1 := not_lt.mpr (le_of_lt h1)
      have hc : contains std.less k (node e l r) = contains std.less k r := by
        simp [contains, std.less, h1, hn]
      rw [hc] at h
      have he : e.1 ≠ k := ne_of_lt h1
      simp only [insert, std.less, h1, hn, decide_True, decide_False, Bool.false_eq_true,
        if_true, if_false, inorder, List.map_append, List.map_cons, ihr hbr h, he]
      rw [idl k (fun y hy => ne_of_lt (lt_trans (hl y hy) h1))]

end node_ptr

end BinarySearchTreeMore

section BinarySearchTreeMoreClaims

variable {K : Type u} {V : Type v} [LinearOrder K]

namespace BinarySearchTree

/-- Public `insert` of a key that `contains` finds, on a tree in BST order. -/
theorem insert_present (b : BinarySearchTree K V) (k : K) (v : V)
    (hb : node_ptr.BSTOrder b._root) (hc : b.contains std.less k = true) :
    (b.insert std.less (k, v)).size = b.size ∧
      (b.insert std.less (k, v))._root.numNodes = b._root.numNodes ∧
      (b.insert std.less (k, v))._root.shape = b._root.shape ∧
      (b.insert std.less (k, v))._root.inorder =
        b._root.inorder.map (fun e => if e.1 = k then (e.1, v) else e) ∧
      (b.insert std.less (k, v)).find k = some v := by
  obtain ⟨h1, h2, h3⟩ := node_ptr.insert_of_contains k v b._root b._size hc
  refine ⟨h1, h2, h3, node_ptr.inorder_insert_of_contains k v b._root b._size hb hc, ?_⟩
  obtain ⟨l, r, h⟩ := node_ptr.find_insert_self k v b._root b._size
  simp only [find, insert, h]

/-- C11. On a tree in BST order (default comparator), inserting `(k, v1)` and then
`(k, v2)` gives the same `size()`, the same number of nodes and the same shape as inserting
`(k, v1)` alone, and `find(k)` then returns `v2`.  More generally, inserting a key that is
already present creates no node, leaves `size()` and the shape unchanged, and changes the
in-order traversal only in the value stored with that key. -/
theorem insert_existing_key (b : BinarySearchTree K V) (k : K) (v1 v2 : V)
    (hb : node_ptr.BSTOrder b._root) :
    (((b.insert std.less (k, v1)).insert std.less (k, v2)).size =
        (b.insert std.less (k, v1)).size ∧
      ((b.insert std.less (k, v1)).insert std.less (k, v2))._root.numNodes =
        (b.insert std.less (k, v1))._root.numNodes ∧
      ((b.insert std.less (k, v1)).insert std.less (k, v2))._root.shape =
        (b.insert std.less (k, v1))._root.shape ∧
      ((b.insert std.less (k, v1)).insert std.less (k, v2)).find k = some v2) ∧
    (b.contains std.less k = true →
      (b.insert std.less (k, v2)).size = b.size ∧
        (b.insert std.less (k, v2))._root.numNodes = b._root.numNodes ∧
        (b.insert std.less (k, v2))._root.shape = b._root.shape ∧
        (b.insert std.less (k, v2))._root.inorder =
          b._root.inorder.map (fun e => if e.1 = k then (e.1, v2) else e) ∧
        (b.insert std.less (k, v2)).find k = some v2) := by
  constructor
  · have hb1 : node_ptr.BSTOrder (b.insert std.less (k, v1))._root :=
      node_ptr.BSTOrder_insert (k, v1) b._root b._size hb
    have hc1 : (b.insert std.less (k, v1)).contains std.less k = true :=
      node_ptr.contains_insert_self k v1 b._root b._size
    obtain ⟨h1, h2, h3, _, h5⟩ := insert_present (b.insert std.less (k, v1)) k v2 hb1 hc1
    exact ⟨h1, h2, h3, h5⟩
  · intro hc
    exact insert_present b k v2 hb hc

/-- C13. On a non-empty tree in BST order, `min()` returns the pair stored at the leftmost
node (reached from the root by `left` links only, without a left child) and `max()` the pair
stored at the rightmost node; the key of the first is less than or equal to every key of the
tree and the key of the second is greater than or equal to every key; they are the first and
the last entry of the in-order traversal. -/
theorem min_max_extremal (b : BinarySearchTree K V) (hb : node_ptr.BSTOrder b._root)
    (hne : b._root ≠ node_ptr.nullptr) :
    ∃ lo hi, b.min = some lo ∧ b.max = some hi ∧
      (∃ n r, node_ptr.subtreeAt (List.replicate n node_ptr.Dir.left) b._root =
        node_ptr.node lo node_ptr.nullptr r) ∧
      (∃ n l, node_ptr.subtreeAt (List.replicate n node_ptr.Dir.right) b._root =
        node_ptr.node hi l node_ptr.nullptr) ∧
      (∀ y ∈ b._root.inorder, lo.1 ≤ y.1) ∧ (∀ y ∈ b._root.inorder, y.1 ≤ hi.1) ∧
      b._root.inorder.head? = some lo ∧ b._root.inorder.getLast? = some hi := by
  have hs := (node_ptr.BSTOrder_iff_sorted b._root).mp hb
  cases hmin : node_ptr.min b._root with
  | nullptr => exact absurd ((node_ptr.min_eq_nullptr_iff _).mp hmin) hne
  | node lo ml mr =>
    cases hmax : node_ptr.max b._root with
    | nullptr => exact absurd ((node_ptr.max_eq_nullptr_iff _).mp hmax) hne
    | node hi xl xr =>
      obtain ⟨hml, hin⟩ := node_ptr.inorder_of_min hmin
      obtain ⟨hxr, pre, hpre⟩ := node_ptr.inorder_of_max hmax
      subst hml hxr
      obtain ⟨n1, hn1⟩ := node_ptr.min_is_leftmost b._root
      obtain ⟨n2, hn2⟩ := node_ptr.max_is_rightmost b._root
      refine ⟨lo, hi, by simp [min, hmin, node_ptr.element?],
        by simp [max, hmax, node_ptr.element?], ⟨n1, mr, by rw [hn1, hmin]⟩,
        ⟨n2, xl, by rw [hn2, hmax]⟩, ?_, ?_, by rw [hin]; rfl, by rw [hpre]; simp⟩
      · intro y hy
        rw [hin] at hy hs
        simp only [List.map_cons, List.pairwise_cons, List.mem_map] at hs
        rcases List.mem_cons.mp hy with rfl | hy
        · exact le_refl _
        · exact le_of_lt (hs.1 y.1 ⟨y, hy, rfl⟩)
      · intro y hy
        rw [hpre] at hy hs
        simp only [List.map_append, List.map_cons, List.map_nil, List.pairwise_append,
          List.mem_map, List.mem_singleton] at hs
        rcases List.mem_append.mp hy with hy | hy
        · exact le_of_lt (hs.2.2 y.1 ⟨y, hy, rfl⟩ hi.1 rfl)
        · rw [List.mem_singleton.mp hy]

end BinarySearchTree

end BinarySearchTreeMoreClaims

section BinarySearchTreeCopy

variable {K : Type u} {V : Type v}

namespace BinarySearchTree

/-- What `clone` and the copy operations preserve.  The tree built by `clone` is equal to
its argument node by node: same shape, same key and value at every node, hence the same
in-order traversal and the same number of nodes.  The copy constructor gives an object with
that tree and the `size()` of the original.  The copy assignment operator gives that tree
too, and the `size()` of the original when `_size` counts the nodes in both objects
(`copy_assign_stale_size` shows what happens otherwise).  The original is an argument
passed by reference to `const` and is not written. -/
theorem clone_preserves_tree (t : node_ptr K V) (self rhs : BinarySearchTree K V) :
    (node_ptr.clone t = t ∧ (node_ptr.clone t).shape = t.shape ∧
      (node_ptr.clone t).inorder = t.inorder ∧
      (node_ptr.clone t).numNodes = t.numNodes) ∧
    (rhs.copy._root = rhs._root ∧ rhs.copy._root.inorder = rhs._root.inorder ∧
      rhs.copy.size = rhs.size) ∧
    ((self.copyAssign rhs)._root = rhs._root ∧
      (self.copyAssign rhs)._root.inorder = rhs._root.inorder) ∧
    (self._size = self._root.numNodes → rhs._size = rhs._root.numNodes →
      (self.copyAssign rhs).size = rhs.size ∧ self.copyAssign rhs = rhs) := by
  have hroot : (self.copyAssign rhs)._root = rhs._root := by
    simp only [copyAssign]
    split_ifs with h
    · simp only [Bool.and_eq_true, node_ptr.isNull_iff] at h
      rw [h.1, h.2]
    · simp [node_ptr.clone_eq]
  refine ⟨⟨node_ptr.clone_eq t, by rw [node_ptr.clone_eq], by rw [node_ptr.clone_eq],
    by rw [node_ptr.clone_eq]⟩, ⟨by simp [copy, node_ptr.clone_eq],
    by simp [copy, node_ptr.clone_eq], by simp [copy, size]⟩, ⟨hroot, by rw [hroot]⟩, ?_⟩
  intro h1 h2
  have heq : self.copyAssign rhs = rhs := by
    simp only [copyAssign]
    split_ifs with h
    · simp only [Bool.and_eq_true, node_ptr.isNull_iff] at h
      obtain ⟨r1, s1⟩ := self
      obtain ⟨r2, s2⟩ := rhs
      simp only at h h1 h2
      obtain ⟨rfl, rfl⟩ := h
      simp only [node_ptr.numNodes] at h1 h2
      rw [h1, h2]
    · simp [node_ptr.clone_eq]
  exact ⟨by rw [heq], heq⟩

end BinarySearchTree

end BinarySearchTreeCopy

section ComparatorAndMove

namespace BinarySearchTree

/-- C15 (evaluation of the code where the claim fails).  On the tree built by inserting the
keys 5 and 3 under `std::greater`, `contains(3)` is true, but the descent of `find(3)`,
which compares with `<` instead of `comp`, ends in `nullptr`, and the public `find`
dereferences it. -/
theorem find_ignores_comparator :
    StrictWeakOrder (std.greater : Nat → Nat → Bool) ∧
      greaterTree._root =
        node_ptr.node (5, 50) node_ptr.nullptr
          (node_ptr.node (3, 30) node_ptr.nullptr node_ptr.nullptr) ∧
      greaterTree.contains std.greater 3 = true ∧
      node_ptr.find 3 greaterTree._root = node_ptr.nullptr ∧
      greaterTree.find 3 = none :=
  ⟨std.greater_strictWeakOrder, by decide, by decide, by decide, by decide⟩

/-- C16 (evaluation of the code where the claim fails).  On the tree built by inserting the
keys 5 and 3 under `std::greater`, `contains(3)` is true, but `erase(3)`, which compares
with `<` instead of `comp`, descends to the empty left subtree and removes nothing:
afterwards `contains(3)` is still true and `size()` is still 2. -/
theorem erase_ignores_comparator :
    StrictWeakOrder (std.greater : Nat → Nat → Bool) ∧
      greaterTree.contains std.greater 3 = true ∧
      greaterTree.size = 2 ∧
      greaterTree.erase 3 = greaterTree ∧
      (greaterTree.erase 3).contains std.greater 3 = true ∧
      (greaterTree.erase 3).size = 2 :=
  ⟨std.greater_strictWeakOrder, by decide, by decide, by decide, by decide, by decide⟩

/-- C20 (evaluation of the code where the claim fails).  Moving from a tree with one node
and `size() == 1`: the destination gets the node and the count, the source is left without
nodes, but its `_size` is not reset, so its `size()` is still 1 and its `empty()` is false.
The move constructor and the move assignment operator behave alike. -/
theorem move_leaves_stale_size :
    singleton._size = singleton._root.numNodes ∧
      (moveCtor singleton).1 = singleton ∧
      (moveCtor singleton).2._root = node_ptr.nullptr ∧
      (moveCtor singleton).2.size = 1 ∧
      (moveCtor singleton).2.empty = false ∧
      (moveAssign init singleton).1 = singleton ∧
      (moveAssign init singleton).2._root = node_ptr.nullptr ∧
      (moveAssign init singleton).2.size = 1 ∧
      (moveAssign init singleton).2.empty = false :=
  ⟨by decide, by decide, by decide, by decide, by decide, by decide, by decide, by decide,
    by decide⟩

/-- C14 (evaluation of the code where the claim fails).  A tree that was moved from has no
nodes and `size() == 1`.  When it is copy-assigned to an empty tree both roots are null, so
the test `_root == rhs._root`, which the source writes as its self-assignment check,
returns at once: the copy has the (empty) tree of the original, but `size() == 0` while
the original has `size() == 1`.  The copy constructor on the same original copies
`_size` and gives `size() == 1`. -/
theorem copy_assign_stale_size :
    (moveCtor singleton).2 = ⟨node_ptr.nullptr, 1⟩ ∧
      init.copyAssign (moveCtor singleton).2 = init ∧
      (init.copyAssign (moveCtor singleton).2)._root.inorder =
        (moveCtor singleton).2._root.inorder ∧
      (init.copyAssign (moveCtor singleton).2).size = 0 ∧
      (moveCtor singleton).2.size = 1 ∧
      (moveCtor singleton).2.copy.size = 1 :=
  ⟨by decide, by decide, by decide, by decide, by decide, by decide⟩

end BinarySearchTree

end ComparatorAndMove

/-! ## Further theorems on PriorityQueue -/

section PriorityQueueMore

variable {T : Type}

namespace PriorityQueue

theorem upheap_some (comp : T → T → Bool) (l : List T) (i : Nat) (hi : i < l.length) :
    ∃ l1, upheap comp l i = some l1 ∧ l1.Perm l := by
  obtain ⟨l1, h1, h2, _⟩ := upheapLoop_spec comp (i + 1) l i (by omega) hi
  exact ⟨l1, h1, h2⟩

theorem downheap_some (comp : T → T → Bool) (l : List T) (i : Nat) (hi : i ≤ l.length) :
    ∃ l1, downheap comp l i = some l1 ∧ l1.Perm l := by
  obtain ⟨l1, h1, h2, _⟩ := downheapRec_spec comp (l.length + 1) l i (by omega) hi
  exact ⟨l1, h1, h2⟩

/-- The recording loop computes the sequence that the loop of `upheap` computes. -/
theorem upheapTrace_fst (comp : T → T → Bool) (fuel : Nat) :
    ∀ (l : List T) (i : Nat),
      (upheapTrace comp fuel l i).map Prod.fst = upheapLoop comp fuel l i := by
  induction fuel with
  | zero => intro l i; rfl
  | succ fuel ih =>
    intro l i
    by_cases h0 : i = 0
    · subst h0
      simp [upheapTrace, upheapLoop]
    · cases hp : l[parent i]? with
      | none => simp [upheapTrace, upheapLoop, h0, hp]
      | some p =>
        cases hx : l[i]? with
        | none => simp [upheapTrace, upheapLoop, h0, hp, hx]
        | some x =>
          cases hc : comp p x with
          | false => simp [upheapTrace, upheapLoop, h0, hp, hx, hc]
          | true =>
            cases hs : swap l (parent i) i with
            | none => simp [upheapTrace, upheapLoop, h0, hp, hx, hc, hs]
            | some l1 =>
              have := ih l1 (parent i)
              cases ht : upheapTrace comp fuel l1 (parent i) with
              | none =>
                rw [ht] at this
                simp [upheapTrace, upheapLoop, h0, hp, hx, hc, hs, ht, ← this]
              | some r =>
                rw [ht] at this
                simp [upheapTrace, upheapLoop, h0, hp, hx, hc, hs, ht, ← this]

/-- Every argument with which the loop of `upheap` calls `parent` is a position different
from `0` and not after the start position. -/
theorem upheapTrace_args (comp : T → T → Bool) (fuel : Nat) :
    ∀ (l : List T) (i : Nat) (r : List T × List Nat), upheapTrace comp fuel l i = some r →
      ∀ a ∈ r.2, a ≠ 0 ∧ a ≤ i := by
  induction fuel with
  | zero => intro l i r h; simp [upheapTrace] at h
  | succ fuel ih =>
    intro l i r h
    by_cases h0 : i = 0
    · subst h0
      simp only [upheapTrace, bne_self_eq_false, Bool.false_eq_true, if_false] at h
      injection h with h
      subst h
      simp
    · have hpi : parent i ≤ i := by rw [parent_of_pos h0]; omega
      cases hp : l[parent i]? with
      | none => simp [upheapTrace, h0, hp] at h
      | some p =>
        cases hx : l[i]? with
        | none => simp [upheapTrace, h0, hp, hx] at h
        | some x =>
          cases hc : comp p x with
          | false =>
            simp [upheapTrace, h0, hp, hx, hc] at h
            subst h
            intro a ha
            simp only [List.mem_singleton] at ha
            subst ha
            exact ⟨h0, le_refl _⟩
          | true =>
            cases hs : swap l (parent i) i with
            | none => simp [upheapTrace, h0, hp, hx, hc, hs] at h
            | some l1 =>
              cases ht : upheapTrace comp fuel l1 (parent i) with
              | none => simp [upheapTrace, h0, hp, hx, hc, hs, ht] at h
              | some r1 =>
                simp [upheapTrace, h0, hp, hx, hc, hs, ht] at h
                subst h
                intro a ha
                rcases List.mem_cons.mp ha with rfl | ha
                · exact ⟨h0, le_refl _⟩
                · obtain ⟨h1, h2⟩ := ih l1 (parent i) r1 ht a ha
                  exact ⟨h1, le_trans h2 hpi⟩

theorem InSubtree.le {k m : Nat} (h : InSubtree k m) : k ≤ m := by
  induction h with
  | root => exact le_refl _
  | left _ ih => simp only [left_child]; omega
  | right _ ih => simp only [right_child]; omega

theorem InSubtree.of_child {k curr m : Nat} (hcurr : (curr - 1) / 2 = k) (hc1 : 1 ≤ curr)
    (h : InSubtree curr m) : InSubtree k m := by
  induction h with
  | root =>
    have hcases : curr = left_child k ∨ curr = right_child k := by
      simp only [left_child, right_child]; omega
    rcases hcases with hc | hc
    · rw [hc]; exact InSubtree.left InSubtree.root
    · rw [hc]; exact InSubtree.right InSubtree.root
  | left _ ih => exact InSubtree.left ih
  | right _ ih => exact InSubtree.right ih

theorem subHeap_child {comp : T → T → Bool} {l : List T} {k curr : Nat}
    (h : SubHeap comp l k) (hcurr : (curr - 1) / 2 = k) (hc1 : 1 ≤ curr) :
    SubHeap comp l curr :=
  fun j a b hj hin ha hb => h j a b hj (InSubtree.of_child hcurr hc1 hin) ha hb

/-- A sequence that passes the check `heapOrderFrom` at `k` has a heap-ordered subtree at
`k`. -/
theorem subHeap_of_check {comp : T → T → Bool} {l : List T} {k : Nat}
    (h : heapOrderFrom comp l k = true) : SubHeap comp l k := by
  intro j a b hj hin ha hb
  have hjl : j < l.length := (List.getElem?_eq_some.mp hb).1
  simp only [heapOrderFrom, List.all_eq_true, List.mem_range] at h
  have := h j hjl
  rw [if_pos ⟨hj, hin.le⟩, ha, hb] at this
  simpa using this

/-- One step of `downheap` at an internal position, for the code and for the specified
sift-down: both choose the same child. -/
theorem downheap_step_both (comp : T → T → Bool) (fuel : Nat) (l : List T) (i : Nat) (x : T)
    (hx : l[i]? = some x) (hnl : 2 * i + 1 < l.length) :
    ∃ curr y, l[curr]? = some y ∧ 1 ≤ curr ∧ (curr - 1) / 2 = i ∧
      downheapRec comp (fuel + 1) l i =
        (if comp x y = true then swap l i curr else some l).bind
          (fun c1 => downheapRec comp fuel c1 curr) ∧
      downheapSpecRec comp (fuel + 1) l i =
        if comp x y = true then
          (swap l i curr).bind (fun c1 => downheapSpecRec comp fuel c1 curr)
        else some l := by
  obtain ⟨yl, hyl⟩ : ∃ y, l[2 * i + 1]? = some y := ⟨_, List.getElem?_eq_getElem hnl⟩
  have hleaf : ¬ l.length ≤ 2 * i + 1 := by omega
  by_cases hr : 2 * (i + 1) < l.length
  · obtain ⟨yr, hyr⟩ : ∃ y, l[2 * (i + 1)]? = some y := ⟨_, List.getElem?_eq_getElem hr⟩
    cases hlr : comp yl yr with
    | true =>
      refine ⟨2 * (i + 1), yr, hyr, by omega, by omega, ?_, ?_⟩
      · cases hxy : comp x yr <;>
          simp [downheapRec, is_leaf, left_child, right_child, hleaf, hr, hyl, hyr, hlr, hx,
            hxy]
      · cases hxy : comp x yr <;>
          simp [downheapSpecRec, is_leaf, left_child, right_child, hleaf, hr, hyl, hyr, hlr,
            hx, hxy]
    | false =>
      refine ⟨2 * i + 1, yl, hyl, by omega, by omega, ?_, ?_⟩
      · cases hxy : comp x yl <;>
          simp [downheapRec, is_leaf, left_child, right_child, hleaf, hr, hyl, hyr, hlr, hx,
            hxy]
      · cases hxy : comp x yl <;>
          simp [downheapSpecRec, is_leaf, left_child, right_child, hleaf, hr, hyl, hyr, hlr,
            hx, hxy]
  · refine ⟨2 * i + 1, yl, hyl, by omega, by omega, ?_, ?_⟩
    · cases hxy : comp x yl <;>
        simp [downheapRec, is_leaf, left_child, right_child, hleaf, hr, hyl, hx, hxy]
    · cases hxy : comp x yl <;>
        simp [downheapSpecRec, is_leaf, left_child, right_child, hleaf, hr, hyl, hx, hxy]

/-- On a subtree in heap order the code's `downheap` walks down without a swap and returns
the sequence as it is. -/
theorem downheapRec_of_subHeap (comp : T → T → Bool) (fuel : Nat) :
    ∀ (l : List T) (k : Nat), l.length < fuel + k → k ≤ l.length → SubHeap comp l k →
      downheapRec comp fuel l k = some l := by
  induction fuel with
  | zero => intro l k hf hk; omega
  | succ fuel ih =>
    intro l k hf _ hsub
    by_cases hleaf : l.length ≤ 2 * k + 1
    · simp [downheapRec, is_leaf, left_child, hleaf]
    · have hkl : k < l.length := by omega
      obtain ⟨x, hx⟩ : ∃ x, l[k]? = some x := ⟨l[k], List.getElem?_eq_getElem hkl⟩
      obtain ⟨curr, y, hy, hc1, hcurr, heq, _⟩ :=
        downheap_step_both comp fuel l k x hx (by omega)
      have hcl : curr < l.length := (List.getElem?_eq_some.mp hy).1
      have hxy : comp x y = false :=
        hsub curr x y hc1 (by rw [hcurr]; exact InSubtree.root) (by rw [hcurr]; exact hx) hy
      rw [heq, hxy]
      simp only [Bool.false_eq_true, if_false, Option.some_bind]
      exact ih l curr (by omega) (by omega) (subHeap_child hsub hcurr hc1)

/-- The code's `downheap` and the specified sift-down compute the same sequence when the
subtrees at both children of the start position are in heap order. -/
theorem downheapRec_eq_spec (comp : T → T → Bool) (fuel : Nat) :
    ∀ (l : List T) (i : Nat), l.length < fuel + i → i ≤ l.length →
      SubHeap comp l (left_child i) → SubHeap comp l (right_child i) →
      downheapRec comp fuel l i = downheapSpecRec comp fuel l i := by
  induction fuel with
  | zero => intro l i hf hi; omega
  | succ fuel ih =>
    intro l i hf _ hL hR
    by_cases hleaf : l.length ≤ 2 * i + 1
    · simp [downheapRec, downheapSpecRec, is_leaf, left_child, hleaf]
    · have hil : i < l.length := by omega
      obtain ⟨x, hx⟩ : ∃ x, l[i]? = some x := ⟨l[i], List.getElem?_eq_getElem hil⟩
      obtain ⟨curr, y, hy, hc1, hcurr, heq1, heq2⟩ :=
        downheap_step_both comp fuel l i x hx (by omega)
      have hcl : curr < l.length := (List.getElem?_eq_some.mp hy).1
      have hsubc : SubHeap comp l curr := by
        have hcases : curr = left_child i ∨ curr = right_child i := by
          simp only [left_child, right_child]; omega
        rcases hcases with hc | hc
        · rw [hc]; exact hL
        · rw [hc]; exact hR
      rw [heq1, heq2]
      cases hxy : comp x y with
      | false =>
        simp only [Bool.false_eq_true, if_false, Option.some_bind]
        exact downheapRec_of_subHeap comp fuel l curr (by omega) (by omega) hsubc
      | true =>
        obtain ⟨l1, hsw, hlen, _, _, _, hother⟩ := swap_spec l i curr hil hcl
        simp only [if_true, hsw, Option.some_bind]
        have hkeep : ∀ c, (c - 1) / 2 = curr → 1 ≤ c → SubHeap comp l1 c := by
          intro c hc hc1' j a b hj hin ha hb
          have hle := hin.le
          rw [hother _ (by omega) (by omega)] at ha
          rw [hother _ (by omega) (by omega)] at hb
          exact hsubc j a b hj (InSubtree.of_child hc hc1' hin) ha hb
        exact ih l1 curr (by omega) (by omega)
          (hkeep _ (by simp only [left_child]; omega) (by simp only [left_child]; omega))
          (hkeep _ (by simp only [right_child]; omega) (by simp only [right_child]; omega))

/-- The sequence that `pop` hands to `downheap(0)`, built from a sequence in heap order,
has heap-ordered subtrees at both children of position `0`. -/
theorem subHeap_after_front {comp : T → T → Bool} {t back : T} {ys : List T}
    (hh : HeapOrder comp (t :: (ys ++ [back]))) (k : Nat) (hk : 1 ≤ k) :
    SubHeap comp (back :: ys) k := by
  intro j a b hj hin ha hb
  have hle := hin.le
  exact (downInv_after_front hh).1 j a b hj (by omega) ha hb

end PriorityQueue

end PriorityQueueMore

section PriorityQueueMoreClaims

variable {T : Type}

namespace PriorityQueue

/-- C12. For every comparator, every sequence and every value, `push(v)` succeeds and the
new sequence is a permutation of the old one followed by `v`: no element is dropped or
duplicated, and `size()` goes up by exactly one.  (Neither heap order nor the strict weak
ordering is needed for this.) -/
theorem push_adds_one (comp : T → T → Bool) (q : PriorityQueue T) (v : T) :
    ∃ q1, q.push comp v = some q1 ∧ q1.c.Perm (q.c ++ [v]) ∧ q1.size = q.size + 1 := by
  obtain ⟨q1, h1, hperm, _⟩ := push_spec comp q v
  refine ⟨q1, h1, hperm, ?_⟩
  simpa [size] using hperm.length_eq

/-- C18. When the subtrees rooted at both children of position `i` are in heap order, the
code's `downheap(i)`, which always goes on into the chosen child, returns the same sequence
as the specified sift-down, which stops as soon as the current element does not rank below
the chosen child; in particular this holds at position `0` of the sequence that `pop`
builds from a sequence in heap order. -/
theorem downheap_refines_spec (comp : T → T → Bool) (l : List T) (i : Nat)
    (hi : i < l.length) (hL : SubHeap comp l (left_child i))
    (hR : SubHeap comp l (right_child i)) :
    (downheap comp l i = downheapSpec comp l i ∧
      ∃ l1, downheap comp l i = some l1 ∧ l1.Perm l) ∧
    (∀ (t back : T) (ys : List T), HeapOrder comp (t :: (ys ++ [back])) →
      downheap comp (back :: ys) 0 = downheapSpec comp (back :: ys) 0) := by
  refine ⟨⟨?_, downheap_some comp l i (le_of_lt hi)⟩, ?_⟩
  · exact downheapRec_eq_spec comp (l.length + 1) l i (by omega) (le_of_lt hi) hL hR
  · intro t back ys hh
    exact downheapRec_eq_spec comp ((back :: ys).length + 1) (back :: ys) 0 (by omega)
      (by omega) (subHeap_after_front hh _ (by simp [left_child]))
      (subHeap_after_front hh _ (by simp [right_child]))

/-- C19. For an index `i` below `c.size()`, `upheap(i)` and `downheap(i)` terminate and
never read or swap a position at or beyond `c.size()` (such an access is the result `none`
of the embedding); every argument with which `upheap` calls `parent` is different from `0`,
so the wrap-around of `0 - 1` does not occur; and `downheap(0)` on the empty sequence
returns at once, without an access. -/
theorem heap_indices_in_bounds (comp : T → T → Bool) (l : List T) (i : Nat)
    (hi : i < l.length) :
    (∃ l1 args, upheapTrace comp (i + 1) l i = some (l1, args) ∧
        upheap comp l i = some l1 ∧ l1.length = l.length ∧
        ∀ a ∈ args, a ≠ 0 ∧ a < l.length ∧ parent a = (a - 1) / 2 ∧ parent a < l.length) ∧
      (∃ l2, downheap comp l i = some l2 ∧ l2.length = l.length) ∧
      downheap comp ([] : List T) 0 = some [] := by
  obtain ⟨l1, h1, hperm1⟩ := upheap_some comp l i hi
  obtain ⟨l2, h2, hperm2⟩ := downheap_some comp l i (le_of_lt hi)
  have hfst := upheapTrace_fst comp (i + 1) l i
  simp only [upheap] at h1
  rw [h1] at hfst
  cases ht : upheapTrace comp (i + 1) l i with
  | none => simp [ht] at hfst
  | some r =>
    obtain ⟨l1', args⟩ := r
    rw [ht] at hfst
    simp only [Option.map_some', Option.some.injEq] at hfst
    subst hfst
    refine ⟨⟨l1', args, rfl, by simp [upheap, h1], hperm1.length_eq, ?_⟩,
      ⟨l2, h2, hperm2.length_eq⟩, ?_⟩
    · intro a ha
      obtain ⟨ha0, hai⟩ := upheapTrace_args comp (i + 1) l i _ ht a ha
      refine ⟨ha0, by omega, parent_of_pos ha0, ?_⟩
      rw [parent_of_pos ha0]
      omega
    · simp [downheap, downheapRec, is_leaf, left_child]

end PriorityQueue

end PriorityQueueMoreClaims

/-! ## Access to a missing element -/

section MissingElement

theorem node_ptr.find_eq_nullptr_iff {K : Type u} {V : Type v} [LinearOrder K] (k : K)
    (t : node_ptr K V) : node_ptr.find k t = node_ptr.nullptr ↔
      node_ptr.contains std.less k t = false := by
  induction t with
  | nullptr => simp [node_ptr.find, node_ptr.contains]
  | node e l r ihl ihr =>
    rcases lt_trichotomy k e.1 with h | h | h
    · simpa [node_ptr.find, node_ptr.contains, std.less, h, not_lt.mpr (le_of_lt h)] using ihl
    · simp [node_ptr.find, node_ptr.contains, std.less, h]
    · simpa [node_ptr.find, node_ptr.contains, std.less, h, not_lt.mpr (le_of_lt h)] using ihr

theorem PriorityQueue.pop_eq_none_iff {T : Type} (comp : T → T → Bool)
    (q : PriorityQueue T) : q.pop comp = none ↔ q.c = [] := by
  constructor
  · intro h
    by_contra hne
    obtain ⟨_, q1, _, h1, _⟩ := PriorityQueue.pop_spec comp q hne
    rw [h] at h1
    exact absurd h1 (by simp)
  · intro h
    simp [PriorityQueue.pop, h]

/-- C17 (the claim fails).  On the empty tree the private `min`, `max` and `find` return
`nullptr` and the public `min()`, `max()` and `find(7)` dereference it; on the empty queue
position `0` is out of bounds, `top()` reads it and `pop()` reads `c.front()` and
`c.back()`.  None of the five calls ends with an error result: each is undefined
behaviour. -/
theorem missing_element_access_undefined :
    node_ptr.min (BinarySearchTree.init : BinarySearchTree Nat Nat)._root = node_ptr.nullptr ∧
      (BinarySearchTree.init : BinarySearchTree Nat Nat).min = none ∧
      node_ptr.max (BinarySearchTree.init : BinarySearchTree Nat Nat)._root
        = node_ptr.nullptr ∧
      (BinarySearchTree.init : BinarySearchTree Nat Nat).max = none ∧
      node_ptr.find 7 (BinarySearchTree.init : BinarySearchTree Nat Nat)._root
        = node_ptr.nullptr ∧
      (BinarySearchTree.init : BinarySearchTree Nat Nat).find 7 = none ∧
      ¬ (0 < (PriorityQueue.init : PriorityQueue Nat).c.length) ∧
      (PriorityQueue.init : PriorityQueue Nat).top = none ∧
      (PriorityQueue.init : PriorityQueue Nat).pop std.less = none :=
  ⟨by decide, by decide, by decide, by decide, by decide, by decide, by decide, by decide,
    by decide⟩

/-- C17 (amended).  The source has no check and no error result for a missing element.
`min()` and `max()` are undefined exactly on a tree without nodes, `find(key)` exactly
when the descent ends in `nullptr`, which under the default comparator is when
`contains(key)` is false, and `top()` and `pop()` exactly on an empty queue; in every other
case the call returns the stored element, respectively the new queue. -/
theorem missing_element_access {K : Type u} {V : Type v} [LinearOrder K] {T : Type}
    (b : BinarySearchTree K V) (key : K) (q : PriorityQueue T) (comp : T → T → Bool) :
    (b.min = none ↔ b._root = node_ptr.nullptr) ∧
      (b.max = none ↔ b._root = node_ptr.nullptr) ∧
      (b.find key = none ↔ node_ptr.find key b._root = node_ptr.nullptr) ∧
      (b.find key = none ↔ b.contains std.less key = false) ∧
      (q.top = none ↔ q.c = []) ∧
      (q.pop comp = none ↔ q.c = []) := by
  have hfind : b.find key = none ↔ node_ptr.find key b._root = node_ptr.nullptr := by
    simp only [BinarySearchTree.find]
    cases node_ptr.find key b._root <;> simp
  refine ⟨?_, ?_, hfind, ?_, ?_, PriorityQueue.pop_eq_none_iff comp q⟩
  · rw [← node_ptr.min_eq_nullptr_iff]
    simp only [BinarySearchTree.min]
    cases node_ptr.min b._root <;> simp [node_ptr.element?]
  · rw [← node_ptr.max_eq_nullptr_iff]
    simp only [BinarySearchTree.max]
    cases node_ptr.max b._root <;> simp [node_ptr.element?]
  · rw [hfind, node_ptr.find_eq_nullptr_iff]
    rfl
  · simp only [PriorityQueue.top, List.get?_eq_getElem?]
    cases q.c <;> simp

end MissingElement

/-! ## Further scenarios -/

namespace BinarySearchTree

/-- Inserting the key 3, which is present, into the tree of Scenario A. -/
theorem insert_existing_key_witness :
    node_ptr.BSTOrder scenarioA._root ∧
      ((scenarioA.insert std.less (3, 31)).insert std.less (3, 32)).size = 5 ∧
      ((scenarioA.insert std.less (3, 31)).insert std.less (3, 32)).find 3 = some 32 ∧
      (scenarioA.insert std.less (3, 32))._root.inorder =
        [(1, 10), (3, 32), (4, 40), (5, 50), (8, 80)] :=
  ⟨scenarioA_BSTOrder,
    ((insert_existing_key scenarioA 3 31 32 scenarioA_BSTOrder).1.1).trans (by decide),
    (insert_existing_key scenarioA 3 31 32 scenarioA_BSTOrder).1.2.2.2,
    (((insert_existing_key scenarioA 3 31 32 scenarioA_BSTOrder).2 (by decide)).2.2.2.1).trans
      (by decide)⟩

/-- The minimum and the maximum of the tree of Scenario A. -/
theorem min_max_extremal_witness :
    node_ptr.BSTOrder scenarioA._root ∧ scenarioA._root ≠ node_ptr.nullptr ∧
      scenarioA.min = some (1, 10) ∧ scenarioA.max = some (8, 80) ∧
      ∃ lo hi, scenarioA.min = some lo ∧ scenarioA.max = some hi ∧
        (∀ y ∈ scenarioA._root.inorder, lo.1 ≤ y.1) ∧
        (∀ y ∈ scenarioA._root.inorder, y.1 ≤ hi.1) := by
  refine ⟨scenarioA_BSTOrder, by decide, by decide, by decide, ?_⟩
  obtain ⟨lo, hi, h1, h2, _, _, h5, h6, _, _⟩ :=
    min_max_extremal scenarioA scenarioA_BSTOrder (by decide)
  exact ⟨lo, hi, h1, h2, h5, h6⟩

/-- Copying the tree of Scenario A, an object whose `_size` counts its nodes. -/
theorem clone_preserves_tree_witness :
    scenarioA._size = scenarioA._root.numNodes ∧
      (init : BinarySearchTree Nat Nat)._size = (init : BinarySearchTree Nat Nat)._root.numNodes ∧
      scenarioA.copy = scenarioA ∧
      (init : BinarySearchTree Nat Nat).copyAssign scenarioA = scenarioA :=
  ⟨by decide, by decide, by decide,
    ((clone_preserves_tree scenarioA._root init scenarioA).2.2.2 (by decide) (by decide)).2⟩

end BinarySearchTree

namespace PriorityQueue

/-- A sift-down from the root of a sequence whose two subtrees are in heap order. -/
theorem downheap_refines_spec_witness :
    (0 < [1, 9, 8, 3, 4].length ∧ SubHeap std.less [1, 9, 8, 3, 4] (left_child 0) ∧
      SubHeap std.less [1, 9, 8, 3, 4] (right_child 0)) ∧
      downheap std.less [1, 9, 8, 3, 4] 0 = downheapSpec std.less [1, 9, 8, 3, 4] 0 ∧
      downheap std.less [1, 9, 8, 3, 4] 0 = some [9, 4, 8, 3, 1] :=
  ⟨⟨by decide, subHeap_of_check (by decide), subHeap_of_check (by decide)⟩,
    (downheap_refines_spec std.less [1, 9, 8, 3, 4] 0 (by decide)
      (subHeap_of_check (by decide)) (subHeap_of_check (by decide))).1.1,
    by decide⟩

/-- The calls `upheap(4)` and `downheap(0)` on sequences of five elements: `parent` is
called with 4 and 1. -/
theorem heap_indices_in_bounds_witness :
    4 < [9, 8, 5, 1, 10].length ∧
      upheapTrace std.less 5 [9, 8, 5, 1, 10] 4 = some ([10, 9, 5, 1, 8], [4, 1]) ∧
      (∃ l1 args, upheapTrace std.less (4 + 1) [9, 8, 5, 1, 10] 4 = some (l1, args) ∧
        upheap std.less [9, 8, 5, 1, 10] 4 = some l1 ∧ l1.length = 5 ∧
        ∀ a ∈ args, a ≠ 0 ∧ a < 5 ∧ parent a = (a - 1) / 2 ∧ parent a < 5) ∧
      parent 0 = 9223372036854775807 :=
  ⟨by decide, by decide,
    (heap_indices_in_bounds std.less [9, 8, 5, 1, 10] 4 (by decide)).1, by decide⟩

end PriorityQueue
